import Mathlib

/-!
Verification of the retrieval-pipeline core of a RAG question-answering
system: sentence chunking (`ingestion/chunker.py`), the flat inner-product
vector index (`vector_store/faiss_index.py`), query-time retrieval
(`retrieval/retriever.py`) and cross-encoder reranking
(`retrieval/reranker.py`).

Python strings are modelled as Lean `String` (a wrapper around `List Char`),
with the Python primitives `str.split()`, `str.strip()` and `" ".join(...)`
defined directly on the character list.  Python `int` parameters that the
code clamps to be non-negative are modelled as `Nat`; parameters for which
the code checks sign explicitly are modelled as `Int`.
-/

/-! ### Python string primitives -/

/-- Helper for `pySplit`: walks the character list, accumulating the current
word in reverse.  Models the behaviour of Python `str.split()` (split on
runs of whitespace, no empty words). -/
def splitWsAux : List Char → List Char → List (List Char)
  | cur, [] => if cur = [] then [] else [cur.reverse]
  | cur, c :: cs =>
    if c.isWhitespace then
      if cur = [] then splitWsAux [] cs else cur.reverse :: splitWsAux [] cs
    else splitWsAux (c :: cur) cs

/-- Python `s.split()` on a character list. -/
def splitWs (l : List Char) : List (List Char) := splitWsAux [] l

/-- Python `s.split()`: split on whitespace runs, dropping empty pieces. -/
def pySplit (s : String) : List String := (splitWs s.data).map String.mk

/-- `_token_count` from `ingestion/chunker.py`: `len(s.split())`. -/
def tokenCount (s : String) : Nat := (pySplit s).length

/-- Python `s.strip()` on a character list: drop whitespace from both ends. -/
def stripChars (l : List Char) : List Char :=
  ((l.dropWhile Char.isWhitespace).reverse.dropWhile Char.isWhitespace).reverse

/-- Python `s.strip()`. -/
def pyStrip (s : String) : String := String.mk (stripChars s.data)

/-- Python `" ".join(toks)` on character lists. -/
def joinSp : List (List Char) → List Char
  | [] => []
  | t :: ts =>
    match ts with
    | [] => t
    | _ :: _ => t ++ ' ' :: joinSp ts

/-- Python `" ".join(toks).strip()` for a list of token strings, as used to
materialize a chunk's text in `chunk_text`. -/
def joinStrip (toks : List String) : String :=
  String.mk (stripChars (joinSp (toks.map String.data)))

/-- Python `l[-k:]` for `k ≥ 0`.  Note that `l[-0:]` is the whole list
(`-0 == 0` in Python), not the empty list. -/
def pyTailSlice (l : List α) (k : Nat) : List α :=
  if k = 0 then l else l.drop (l.length - k)

/-! ### Chunker (`ingestion/chunker.py`, `chunk_text`) -/

/-- A produced chunk record: the dict
`\x7b"chunk_id", "document_id", "text"\x7d` built at the end of
`chunk_text`. -/
structure ChunkRec where
  chunk_id : String
  document_id : String
  text : String
deriving DecidableEq

/-- State of the sentence-accumulation loop of `chunk_text`:
`chunks_tokens` (finalized token lists) and `current` (working buffer). -/
structure ChunkState where
  chunks : List (List String)
  current : List String
deriving DecidableEq

/-- The force-split `while` loop of `chunk_text` (lines 98-103): blocks
`sent_tokens[j:j+chunk_size]` for `j = 0, stride, 2*stride, ...` while
`j < len(sent_tokens)`; empty blocks are not appended.  `stride ≥ 1` is
guaranteed by the caller (`stride = max(1, chunk_size - overlap)`). -/
def forceBlocks (cs stride : Nat) : List String → List (List String)
  | [] => []
  | t :: ts =>
    let l := t :: ts
    let block := l.take cs
    let rest := forceBlocks cs stride (l.drop (max 1 stride))
    if block = [] then rest else block :: rest
termination_by l => l.length
decreasing_by
  simp only [List.length_drop, List.length_cons]
  omega

/-- Lines 104-107 of `chunk_text`: after a force split, seed the next
buffer with `last[-min(overlap, len(last)):]` where `last` is the final
entry of `chunks_tokens`, or leave it empty if there are no chunks. -/
def seedFromLast (ov : Nat) (chunks : List (List String)) : List String :=
  match chunks.getLast? with
  | none => []
  | some last => pyTailSlice last (min ov last.length)

/-- One iteration of the `for s in sentences` loop of `chunk_text`,
with `cs = chunk_size` and `ov` the already-clamped overlap. -/
def processSentence (cs ov : Nat) (st : ChunkState) (s : String) : ChunkState :=
  let sent_tokens := pySplit s
  if sent_tokens = [] then st
  else if cs < sent_tokens.length then
    -- force-split path: flush `current`, emit fixed-size blocks, seed from
    -- the overlap tail of the last emitted chunk
    let chunks1 := if st.current = [] then st.chunks else st.chunks ++ [st.current]
    let stride := max 1 (cs - ov)
    let chunks2 := chunks1 ++ forceBlocks cs stride sent_tokens
    ⟨chunks2, seedFromLast ov chunks2⟩
  else if st.current.length + sent_tokens.length ≤ cs then
    ⟨st.chunks, st.current ++ sent_tokens⟩
  else
    -- overflow: finalize `current`, seed the new buffer with the effective
    -- overlap tail, then append the sentence
    let prev_tail := if st.current = [] then [] else pyTailSlice st.current (min ov st.current.length)
    let chunks1 := if st.current = [] then st.chunks else st.chunks ++ [st.current]
    let effective_overlap := min prev_tail.length (cs - sent_tokens.length)
    let seeded := if 0 < effective_overlap then pyTailSlice prev_tail effective_overlap else []
    ⟨chunks1, seeded ++ sent_tokens⟩

/-- The full segmentation loop of `chunk_text`: clamp the overlap
(line 86), fold over the sentences, and finalize the remaining buffer.
Produces the `chunks_tokens` list as it stands at line 127, before the
short-fragment filter. -/
def chunkTokens (sentences : List String) (cs ov : Nat) : List (List String) :=
  let ovc := min ov (cs - 1)
  let st := sentences.foldl (processSentence cs ovc) ⟨[], []⟩
  if st.current = [] then st.chunks else st.chunks ++ [st.current]

/-- `MIN_TOKENS` filter of `chunk_text` (lines 130-134): if more than one
chunk was produced, drop chunks with fewer than 5 tokens. -/
def filterShort (l : List (List String)) : List (List String) :=
  if 1 < l.length then l.filter (fun t => 5 ≤ t.length) else l

/-- Decimal rendering of a natural number, as performed by the Python
f-string `f"..._\x7bi\x7d"`: most-significant digit first, `"0"` for zero. -/
def natDecimal (n : Nat) : List Char :=
  if n = 0 then ['0'] else (Nat.digits 10 n).reverse.map Nat.digitChar

/-- The `chunk_id` built at line 145: `f"\x7bdocument_id\x7d_\x7bi\x7d"`. -/
def mkChunkId (document_id : String) (i : Nat) : String :=
  document_id ++ "_" ++ String.mk (natDecimal i)

/-- Materialization loop of `chunk_text` (lines 137-148), with `i` the
running `enumerate` index: build the output dicts, skipping empty token
lists and chunks whose joined text strips to the empty string; the index
advances also over skipped entries. -/
def materializeAux (document_id : String) (i : Nat) :
    List (List String) → List ChunkRec
  | [] => []
  | toks :: rest =>
    let out := materializeAux document_id (i + 1) rest
    if toks = [] then out
    else
      let text_chunk := joinStrip toks
      if text_chunk = "" then out
      else ⟨mkChunkId document_id i, document_id, text_chunk⟩ :: out

/-- The materialization phase of `chunk_text`: `enumerate` starts at 0. -/
def materialize (document_id : String) (l : List (List String)) : List ChunkRec :=
  materializeAux document_id 0 l

/-- `chunk_text` from `ingestion/chunker.py`.  The NLTK sentence tokenizer
is an external collaborator, so the function is modelled from the
`sentences` list onward (line 76): every input text yields some sentence
list, an empty or whitespace-only text yields no chunks via an empty
sentence list, and the theorems below quantify over all sentence lists. -/
def chunk_text (sentences : List String) (document_id : String)
    (cs ov : Nat) : List ChunkRec :=
  materialize document_id (filterShort (chunkTokens sentences cs ov))

/-! ### Lemmas about the string primitives -/

/-- Every word produced by `splitWsAux` is nonempty and whitespace-free,
provided the accumulator is whitespace-free. -/
theorem splitWsAux_clean :
    ∀ (l cur : List Char), (∀ c ∈ cur, c.isWhitespace = false) →
      ∀ t ∈ splitWsAux cur l, t ≠ [] ∧ ∀ c ∈ t, c.isWhitespace = false := by
  intro l
  induction l with
  | nil =>
    intro cur hcur t ht
    simp only [splitWsAux] at ht
    split at ht
    · simp at ht
    · simp only [List.mem_singleton] at ht
      subst ht
      refine ⟨by simpa using ‹¬cur = []›, ?_⟩
      intro c hc
      exact hcur c (List.mem_reverse.mp hc)
  | cons c cs ih =>
    intro cur hcur t ht
    simp only [splitWsAux] at ht
    by_cases hws : c.isWhitespace
    · rw [if_pos hws] at ht
      by_cases hcn : cur = []
      · rw [if_pos hcn] at ht
        exact ih [] (by simp) t ht
      · rw [if_neg hcn] at ht
        rcases List.mem_cons.mp ht with h | h
        · subst h
          refine ⟨by simpa using hcn, ?_⟩
          intro d hd
          exact hcur d (List.mem_reverse.mp hd)
        · exact ih [] (by simp) t h
    · rw [if_neg hws] at ht
      refine ih (c :: cur) ?_ t ht
      intro d hd
      rcases List.mem_cons.mp hd with h | h
      · subst h; simpa using hws
      · exact hcur d h

/-- Tokens of `pySplit` are nonempty and whitespace-free. -/
theorem pySplit_clean (s : String) :
    ∀ t ∈ pySplit s, t.data ≠ [] ∧ ∀ c ∈ t.data, c.isWhitespace = false := by
  intro t ht
  simp only [pySplit, List.mem_map] at ht
  obtain ⟨w, hw, rfl⟩ := ht
  exact splitWsAux_clean s.data [] (by simp) w hw

/-- Pushing a whitespace-free word into the accumulator. -/
theorem splitWsAux_word (w : List Char) (hw : ∀ c ∈ w, c.isWhitespace = false) :
    ∀ (cur rest : List Char),
      splitWsAux cur (w ++ rest) = splitWsAux (w.reverse ++ cur) rest := by
  induction w with
  | nil => intro cur rest; simp
  | cons c cs ih =>
    intro cur rest
    have hc : c.isWhitespace = false := hw c (by simp)
    simp only [List.cons_append, splitWsAux, hc, Bool.false_eq_true, if_false,
      List.append_eq]
    rw [ih (fun d hd => hw d (List.mem_cons_of_mem _ hd)) (c :: cur) rest]
    simp

/-- `splitWsAux` on an all-whitespace list just flushes the accumulator. -/
theorem splitWsAux_all_ws :
    ∀ (w : List Char), (∀ c ∈ w, c.isWhitespace = true) →
      ∀ cur, splitWsAux cur w = if cur = [] then [] else [cur.reverse] := by
  intro w
  induction w with
  | nil => intro _ cur; rfl
  | cons c cs ih =>
    intro hw cur
    have hc : c.isWhitespace = true := hw c (by simp)
    simp only [splitWsAux, hc, if_true]
    have h0 : splitWsAux [] cs = [] := by
      rw [ih (fun d hd => hw d (List.mem_cons_of_mem _ hd)) []]
      simp
    by_cases hcn : cur = []
    · simp [hcn, h0]
    · simp [hcn, h0]

/-- Trailing whitespace does not change the splitting. -/
theorem splitWsAux_append_ws :
    ∀ (l : List Char) (cur w : List Char), (∀ c ∈ w, c.isWhitespace = true) →
      splitWsAux cur (l ++ w) = splitWsAux cur l := by
  intro l
  induction l with
  | nil =>
    intro cur w hw
    rw [List.nil_append, splitWsAux_all_ws w hw cur]
    rfl
  | cons c cs ih =>
    intro cur w hw
    simp only [List.cons_append, splitWsAux]
    by_cases hws : c.isWhitespace
    · simp only [hws, if_true]
      by_cases hcn : cur = [] <;> simp [hcn, ih _ w hw]
    · simp only [hws, if_false]
      exact ih _ w hw

/-- Leading whitespace does not change the splitting. -/
theorem splitWs_dropWhile (l : List Char) :
    splitWs (l.dropWhile Char.isWhitespace) = splitWs l := by
  induction l with
  | nil => rfl
  | cons c cs ih =>
    by_cases hws : c.isWhitespace
    · rw [List.dropWhile_cons_of_pos (by simpa using hws)]
      rw [ih]
      simp only [splitWs, splitWsAux, hws, if_true, if_pos rfl]
    · rw [List.dropWhile_cons_of_neg (by simpa using hws)]

/-- Dropping trailing whitespace does not change the result of `split`. -/
theorem splitWs_dropWhileEnd (m : List Char) :
    splitWs ((m.reverse.dropWhile Char.isWhitespace).reverse) = splitWs m := by
  have h1 : m = (m.reverse.dropWhile Char.isWhitespace).reverse ++
      (m.reverse.takeWhile Char.isWhitespace).reverse := by
    conv_lhs => rw [← List.reverse_reverse m,
      ← List.takeWhile_append_dropWhile (p := Char.isWhitespace) (l := m.reverse)]
    exact List.reverse_append _ _
  have hws : ∀ c ∈ (m.reverse.takeWhile Char.isWhitespace).reverse,
      c.isWhitespace = true := by
    intro c hc
    exact List.mem_takeWhile_imp (List.mem_reverse.mp hc)
  calc splitWs ((m.reverse.dropWhile Char.isWhitespace).reverse)
      = splitWs ((m.reverse.dropWhile Char.isWhitespace).reverse ++
          (m.reverse.takeWhile Char.isWhitespace).reverse) :=
        (splitWsAux_append_ws _ [] _ hws).symm
    _ = splitWs m := by rw [← h1]

/-- Python's `strip` does not change the result of `split`. -/
theorem splitWs_stripChars (l : List Char) : splitWs (stripChars l) = splitWs l := by
  unfold stripChars
  rw [splitWs_dropWhileEnd (l.dropWhile Char.isWhitespace)]
  exact splitWs_dropWhile l

/-- Splitting the space-joined list of clean words recovers the words. -/
theorem splitWs_joinSp :
    ∀ (ts : List (List Char)),
      (∀ t ∈ ts, t ≠ [] ∧ ∀ c ∈ t, c.isWhitespace = false) →
      splitWs (joinSp ts) = ts := by
  intro ts
  induction ts with
  | nil => intro _; rfl
  | cons t ts ih =>
    intro h
    obtain ⟨htne, htws⟩ := h t (by simp)
    cases ts with
    | nil =>
      show splitWs (joinSp [t]) = [t]
      unfold splitWs joinSp
      rw [show t = t ++ [] from (List.append_nil t).symm, splitWsAux_word t htws]
      simp [splitWsAux, htne]
    | cons u us =>
      show splitWs (t ++ ' ' :: joinSp (u :: us)) = t :: u :: us
      unfold splitWs
      rw [splitWsAux_word t htws]
      rw [List.append_nil]
      have hsp : (' ' : Char).isWhitespace = true := by decide
      have hrne : ¬ t.reverse = [] := by simpa using htne
      rw [show splitWsAux t.reverse (' ' :: joinSp (u :: us)) =
          t.reverse.reverse :: splitWsAux [] (joinSp (u :: us)) by
        simp only [splitWsAux, hsp, if_true, hrne, if_false]]
      have := ih (fun v hv => h v (List.mem_cons_of_mem _ hv))
      unfold splitWs at this
      rw [this, List.reverse_reverse]

/-- A clean token: nonempty and containing no whitespace characters.  Every
token handled by `chunk_text` arises from Python `str.split()` and is
therefore clean. -/
def CleanTok (t : String) : Prop :=
  t.data ≠ [] ∧ ∀ c ∈ t.data, c.isWhitespace = false

/-- The whitespace-token count of a materialized chunk text is the number
of (clean) tokens joined into it. -/
theorem tokenCount_joinStrip (toks : List String) (h : ∀ t ∈ toks, CleanTok t) :
    tokenCount (joinStrip toks) = toks.length := by
  unfold tokenCount pySplit joinStrip
  rw [List.length_map]
  show (splitWs (stripChars (joinSp (toks.map String.data)))).length = toks.length
  rw [splitWs_stripChars]
  rw [splitWs_joinSp (toks.map String.data) ?hclean]
  · exact List.length_map toks String.data
  case hclean =>
    intro t ht
    rw [List.mem_map] at ht
    obtain ⟨u, hu, rfl⟩ := ht
    exact h u hu

/-- The materialized text of a nonempty clean token list is nonempty. -/
theorem joinStrip_ne_empty (toks : List String) (h : ∀ t ∈ toks, CleanTok t)
    (hne : toks ≠ []) : joinStrip toks ≠ "" := by
  intro hcontra
  have h0 : tokenCount (joinStrip toks) = 0 := by rw [hcontra]; rfl
  rw [tokenCount_joinStrip toks h] at h0
  exact hne (List.length_eq_zero.mp h0)

/-- `Nat.digitChar` is injective on digits below 10. -/
theorem digitChar_inj_lt_ten :
    ∀ a < 10, ∀ b < 10, Nat.digitChar a = Nat.digitChar b → a = b := by decide

/-- Decimal digit lists (most-significant first, digits below 10) map
injectively to character lists. -/
theorem map_digitChar_inj :
    ∀ (l₁ l₂ : List Nat), (∀ d ∈ l₁, d < 10) → (∀ d ∈ l₂, d < 10) →
      l₁.map Nat.digitChar = l₂.map Nat.digitChar → l₁ = l₂ := by
  intro l₁
  induction l₁ with
  | nil =>
    intro l₂ _ _ hmap
    cases l₂ with
    | nil => rfl
    | cons b bs => simp at hmap
  | cons a as ih =>
    intro l₂ h₁ h₂ hmap
    cases l₂ with
    | nil => simp at hmap
    | cons b bs =>
      simp only [List.map_cons, List.cons.injEq] at hmap
      have hab : a = b :=
        digitChar_inj_lt_ten a (h₁ a (by simp)) b (h₂ b (by simp)) hmap.1
      have has : as = bs :=
        ih bs (fun d hd => h₁ d (List.mem_cons_of_mem _ hd))
          (fun d hd => h₂ d (List.mem_cons_of_mem _ hd)) hmap.2
      rw [hab, has]

/-- The decimal rendering used in chunk ids is injective. -/
theorem natDecimal_inj (m n : Nat) (h : natDecimal m = natDecimal n) : m = n := by
  unfold natDecimal at h
  by_cases hm : m = 0 <;> by_cases hn : n = 0
  · rw [hm, hn]
  · exfalso
    rw [if_pos hm, if_neg hn] at h
    have hne : Nat.digits 10 n ≠ [] := Nat.digits_ne_nil_iff_ne_zero.mpr hn
    have hd : (Nat.digits 10 n).reverse.map Nat.digitChar = ['0'] := h.symm
    have : (Nat.digits 10 n).reverse = [0] := by
      apply map_digitChar_inj _ [0]
      · intro d hd'
        exact Nat.digits_lt_base (by norm_num) (List.mem_reverse.mp hd')
      · intro d hd'; simp at hd'; omega
      · rw [hd]; rfl
    have hdig : Nat.digits 10 n = [0] := by
      have := congrArg List.reverse this
      rwa [List.reverse_reverse] at this
    have hofd := Nat.ofDigits_digits 10 n
    rw [hdig] at hofd
    simp [Nat.ofDigits] at hofd
    exact hn hofd.symm
  · exfalso
    rw [if_neg hm, if_pos hn] at h
    have hd : (Nat.digits 10 m).reverse.map Nat.digitChar = ['0'] := h
    have : (Nat.digits 10 m).reverse = [0] := by
      apply map_digitChar_inj _ [0]
      · intro d hd'
        exact Nat.digits_lt_base (by norm_num) (List.mem_reverse.mp hd')
      · intro d hd'; simp at hd'; omega
      · rw [hd]; rfl
    have hdig : Nat.digits 10 m = [0] := by
      have := congrArg List.reverse this
      rwa [List.reverse_reverse] at this
    have hofd := Nat.ofDigits_digits 10 m
    rw [hdig] at hofd
    simp [Nat.ofDigits] at hofd
    exact hm hofd.symm
  · rw [if_neg hm, if_neg hn] at h
    have : (Nat.digits 10 m).reverse = (Nat.digits 10 n).reverse := by
      apply map_digitChar_inj _ _ ?f ?g h
      case f =>
        intro d hd'
        exact Nat.digits_lt_base (by norm_num) (List.mem_reverse.mp hd')
      case g =>
        intro d hd'
        exact Nat.digits_lt_base (by norm_num) (List.mem_reverse.mp hd')
    have hdig : Nat.digits 10 m = Nat.digits 10 n := by
      have := congrArg List.reverse this
      rwa [List.reverse_reverse, List.reverse_reverse] at this
    exact Nat.digits_inj_iff.mp hdig

/-- Chunk ids from one document are injective in the sequence index. -/
theorem mkChunkId_inj (did : String) (i j : Nat)
    (h : mkChunkId did i = mkChunkId did j) : i = j := by
  unfold mkChunkId at h
  have hdata := congrArg String.data h
  simp only [String.data_append] at hdata
  exact natDecimal_inj i j (List.append_cancel_left hdata)

/-! ### Segmentation-loop invariant (token bound, cleanliness, nonemptiness) -/

theorem length_pyTailSlice (l : List α) (k : Nat) :
    (pyTailSlice l k).length = if k = 0 then l.length else min k l.length := by
  unfold pyTailSlice
  split
  · rfl
  · rw [List.length_drop]; omega

theorem pyTailSlice_mem {l : List α} {k : Nat} : ∀ x ∈ pyTailSlice l k, x ∈ l := by
  unfold pyTailSlice
  split
  · exact fun x h => h
  · exact fun x h => List.mem_of_mem_drop h

/-- Tokens of `pySplit` are clean. -/
theorem pySplit_cleanTok (s : String) : ∀ t ∈ pySplit s, CleanTok t :=
  pySplit_clean s

/-- Every block emitted by the force-split loop is nonempty, fits in
`cs` tokens and draws its tokens from the sentence. -/
theorem forceBlocks_sound (cs stride : Nat) :
    ∀ (n : Nat) (toks : List String), toks.length ≤ n →
      ∀ b ∈ forceBlocks cs stride toks,
        b ≠ [] ∧ b.length ≤ cs ∧ ∀ t ∈ b, t ∈ toks := by
  intro n
  induction n with
  | zero =>
    intro toks hlen b hb
    have : toks = [] := List.length_eq_zero.mp (Nat.le_zero.mp hlen)
    subst this
    simp [forceBlocks] at hb
  | succ n ih =>
    intro toks hlen b hb
    cases toks with
    | nil => simp [forceBlocks] at hb
    | cons t ts =>
      rw [forceBlocks] at hb
      have hdroplen : ((t :: ts).drop (max 1 stride)).length ≤ n := by
        rw [List.length_drop]
        simp only [List.length_cons] at hlen ⊢
        omega
      by_cases hblock : (t :: ts).take cs = []
      · rw [if_pos hblock] at hb
        obtain ⟨hne, hle, hsub⟩ := ih _ hdroplen b hb
        exact ⟨hne, hle, fun x hx => List.mem_of_mem_drop (hsub x hx)⟩
      · rw [if_neg hblock] at hb
        rcases List.mem_cons.mp hb with rfl | hb'
        · refine ⟨hblock, by simp, ?_⟩
          exact fun x hx => List.mem_of_mem_take hx
        · obtain ⟨hne, hle, hsub⟩ := ih _ hdroplen b hb'
          exact ⟨hne, hle, fun x hx => List.mem_of_mem_drop (hsub x hx)⟩

/-- Invariant of the segmentation loop: every finalized chunk is nonempty,
holds at most `cs` tokens, and all tokens are clean; the working buffer
holds at most `cs` clean tokens. -/
def ChunkInv (cs : Nat) (st : ChunkState) : Prop :=
  (∀ l ∈ st.chunks, l ≠ [] ∧ l.length ≤ cs ∧ ∀ t ∈ l, CleanTok t) ∧
  st.current.length ≤ cs ∧ ∀ t ∈ st.current, CleanTok t

theorem seedFromLast_inv (cs ov : Nat) (L : List (List String))
    (hL : ∀ l ∈ L, l ≠ [] ∧ l.length ≤ cs ∧ ∀ t ∈ l, CleanTok t) :
    (seedFromLast ov L).length ≤ cs ∧ ∀ t ∈ seedFromLast ov L, CleanTok t := by
  cases h : L.getLast? with
  | none =>
    simp only [seedFromLast, h]
    exact ⟨Nat.zero_le cs, by simp⟩
  | some last =>
    obtain ⟨-, hlen, hclean⟩ := hL last (List.mem_of_getLast?_eq_some h)
    simp only [seedFromLast, h]
    constructor
    · rw [length_pyTailSlice]
      split <;> omega
    · exact fun t ht => hclean t (pyTailSlice_mem t ht)

theorem processSentence_inv (cs ov : Nat) (st : ChunkState) (s : String)
    (h : ChunkInv cs st) : ChunkInv cs (processSentence cs ov st s) := by
  obtain ⟨hchunks, hcurlen, hcurclean⟩ := h
  have htoks : ∀ t ∈ pySplit s, CleanTok t := pySplit_cleanTok s
  simp only [processSentence]
  split
  · exact ⟨hchunks, hcurlen, hcurclean⟩
  next hforce =>
  split
  · -- force-split path
    next hlong =>
    have hchunks1 : ∀ l ∈ (if st.current = [] then st.chunks
        else st.chunks ++ [st.current]),
        l ≠ [] ∧ l.length ≤ cs ∧ ∀ t ∈ l, CleanTok t := by
      split
      · exact hchunks
      · next hcne =>
        intro l hl
        rcases List.mem_append.mp hl with hl' | hl'
        · exact hchunks l hl'
        · rw [List.mem_singleton] at hl'
          subst hl'
          exact ⟨hcne, hcurlen, hcurclean⟩
    have hchunks2 : ∀ l ∈ (if st.current = [] then st.chunks
          else st.chunks ++ [st.current]) ++
          forceBlocks cs (max 1 (cs - ov)) (pySplit s),
        l ≠ [] ∧ l.length ≤ cs ∧ ∀ t ∈ l, CleanTok t := by
      intro l hl
      rcases List.mem_append.mp hl with hl' | hl'
      · exact hchunks1 l hl'
      · obtain ⟨hne, hle, hsub⟩ :=
          forceBlocks_sound cs (max 1 (cs - ov)) (pySplit s).length (pySplit s)
            (Nat.le_refl _) l hl'
        exact ⟨hne, hle, fun t ht => htoks t (hsub t ht)⟩
    exact ⟨hchunks2, seedFromLast_inv cs ov _ hchunks2⟩
  next hlong =>
  split
  · -- greedy accumulation, sentence fits
    next hfit =>
    refine ⟨hchunks, by simpa using hfit, ?_⟩
    intro t ht
    rcases List.mem_append.mp ht with ht' | ht'
    · exact hcurclean t ht'
    · exact htoks t ht'
  · -- overflow: finalize current, seed with effective overlap
    next hover =>
    refine ⟨?_, ?_, ?_⟩
    · split
      · exact hchunks
      · next hcne =>
        intro l hl
        rcases List.mem_append.mp hl with hl' | hl'
        · exact hchunks l hl'
        · rw [List.mem_singleton] at hl'
          subst hl'
          exact ⟨hcne, hcurlen, hcurclean⟩
    · rw [List.length_append]
      set pt := (if st.current = [] then ([] : List String)
        else pyTailSlice st.current (min ov st.current.length)) with hpt
      set eff := min pt.length (cs - (pySplit s).length) with heff
      have hptlen : pt.length ≤ st.current.length := by
        rw [hpt]
        split
        · simp
        · rw [length_pyTailSlice]
          split <;> omega
      split
      · next hpos =>
        rw [length_pyTailSlice]
        split <;> omega
      · simp only [List.length_nil]
        omega
    · intro t ht
      rcases List.mem_append.mp ht with ht' | ht'
      · by_cases hcn : st.current = []
        · rw [if_pos hcn] at ht'
          simp [pyTailSlice] at ht'
        · rw [if_neg hcn] at ht'
          split at ht'
          · exact hcurclean t (pyTailSlice_mem t (pyTailSlice_mem t ht'))
          · simp at ht'
      · exact htoks t ht'

theorem foldlProcess_inv (cs ov : Nat) (sentences : List String) :
    ∀ st, ChunkInv cs st →
      ChunkInv cs (sentences.foldl (processSentence cs ov) st) := by
  induction sentences with
  | nil => exact fun st h => h
  | cons s rest ih =>
    intro st h
    exact ih _ (processSentence_inv cs ov st s h)

/-- Every token list produced by the segmentation loop is nonempty, fits
in `cs` tokens, and consists of clean tokens. -/
theorem chunkTokens_sound (sentences : List String) (cs ov : Nat) :
    ∀ l ∈ chunkTokens sentences cs ov,
      l ≠ [] ∧ l.length ≤ cs ∧ ∀ t ∈ l, CleanTok t := by
  have hinv := foldlProcess_inv cs (min ov (cs - 1)) sentences ⟨[], []⟩
    ⟨by simp, by simp, by simp⟩
  obtain ⟨hchunks, hcurlen, hcurclean⟩ := hinv
  intro l hl
  rw [chunkTokens] at hl
  split at hl
  · exact hchunks l hl
  · next hcne =>
    rcases List.mem_append.mp hl with hl' | hl'
    · exact hchunks l hl'
    · rw [List.mem_singleton] at hl'
      subst hl'
      exact ⟨hcne, hcurlen, hcurclean⟩

theorem filterShort_mem (L : List (List String)) :
    ∀ l ∈ filterShort L, l ∈ L := by
  unfold filterShort
  split
  · exact fun l hl => (List.mem_filter.mp hl).1
  · exact fun l hl => hl

/-- Every record built by the materialization loop takes its text from a
member token list. -/
theorem materializeAux_text (did : String) :
    ∀ (l : List (List String)) (i : Nat) (c : ChunkRec),
      c ∈ materializeAux did i l → ∃ toks ∈ l, c.text = joinStrip toks := by
  intro l
  induction l with
  | nil => intro i c hc; simp [materializeAux] at hc
  | cons toks rest ih =>
    intro i c hc
    rw [materializeAux] at hc
    split at hc
    · obtain ⟨u, hu, ht⟩ := ih (i + 1) c hc
      exact ⟨u, List.mem_cons_of_mem _ hu, ht⟩
    · simp only [] at hc
      split at hc
      · obtain ⟨u, hu, ht⟩ := ih (i + 1) c hc
        exact ⟨u, List.mem_cons_of_mem _ hu, ht⟩
      · rcases List.mem_cons.mp hc with rfl | hc'
        · exact ⟨toks, by simp, rfl⟩
        · obtain ⟨u, hu, ht⟩ := ih (i + 1) c hc'
          exact ⟨u, List.mem_cons_of_mem _ hu, ht⟩

/-- C1: for every sentence list, document id, `chunk_size > 0` and
overlap, every chunk returned by `chunk_text` has a whitespace-delimited
token count at most `chunk_size` (the overlap being clamped internally to
`[0, chunk_size - 1]`). -/
theorem chunk_text_token_bound (sentences : List String) (did : String)
    (cs ov : Nat) (_hcs : 0 < cs) :
    ∀ c ∈ chunk_text sentences did cs ov, tokenCount c.text ≤ cs := by
  intro c hc
  unfold chunk_text materialize at hc
  obtain ⟨toks, htoks, htext⟩ := materializeAux_text did _ 0 c hc
  have hmem := filterShort_mem _ toks htoks
  obtain ⟨hne, hlen, hclean⟩ := chunkTokens_sound sentences cs ov toks hmem
  rw [htext, tokenCount_joinStrip toks hclean]
  exact hlen

/-- Witness for C1 at a concrete input. -/
theorem chunk_text_token_bound_witness :
    0 < 10 ∧ ∀ c ∈ chunk_text ["A cat sat on the mat.", "A dog ran in the park."]
      "doc" 10 2, tokenCount c.text ≤ 10 :=
  ⟨by decide,
   chunk_text_token_bound ["A cat sat on the mat.", "A dog ran in the park."]
     "doc" 10 2 (by decide)⟩

/-- When no token list is empty and all tokens are clean, the
materialization loop skips nothing: record `j` gets id index `i + j`. -/
theorem materializeAux_ids (did : String) :
    ∀ (l : List (List String)) (i : Nat),
      (∀ toks ∈ l, toks ≠ [] ∧ ∀ t ∈ toks, CleanTok t) →
      (materializeAux did i l).map ChunkRec.chunk_id =
        (List.range l.length).map (fun j => mkChunkId did (i + j)) := by
  intro l
  induction l with
  | nil => intro i _; rfl
  | cons toks rest ih =>
    intro i h
    obtain ⟨hne, hclean⟩ := h toks (by simp)
    have htxt : joinStrip toks ≠ "" := by
      apply joinStrip_ne_empty toks hclean
      exact hne
    rw [materializeAux]
    rw [if_neg hne]
    simp only [] 
    rw [if_neg htxt]
    rw [List.map_cons]
    rw [ih (i + 1) (fun u hu => h u (List.mem_cons_of_mem _ hu))]
    rw [List.length_cons, List.range_succ_eq_map, List.map_cons, List.map_map]
    congr 1
    apply List.map_congr_left
    intro a _
    simp only [Function.comp_apply, Nat.succ_eq_add_one]
    congr 1
    omega

/-- C8: each output chunk's `chunk_id` is `<document_id>_<i>` with `i` its
0-based position in the post-filter output sequence, so within one
document the ids are pairwise distinct and strictly increasing in source
order (the position index strictly increases). -/
theorem chunk_text_id_position (sentences : List String) (did : String)
    (cs ov : Nat) (_hcs : 0 < cs) :
    (chunk_text sentences did cs ov).map ChunkRec.chunk_id =
      (List.range (chunk_text sentences did cs ov).length).map (mkChunkId did) ∧
    ((chunk_text sentences did cs ov).map ChunkRec.chunk_id).Pairwise (· ≠ ·) := by
  have hsound : ∀ toks ∈ filterShort (chunkTokens sentences cs ov),
      toks ≠ [] ∧ ∀ t ∈ toks, CleanTok t := by
    intro toks htoks
    obtain ⟨hne, -, hclean⟩ :=
      chunkTokens_sound sentences cs ov toks (filterShort_mem _ toks htoks)
    exact ⟨hne, hclean⟩
  have hids := materializeAux_ids did (filterShort (chunkTokens sentences cs ov)) 0 hsound
  have hids' : (chunk_text sentences did cs ov).map ChunkRec.chunk_id =
      (List.range (filterShort (chunkTokens sentences cs ov)).length).map
        (mkChunkId did) := by
    unfold chunk_text materialize
    rw [hids]
    apply List.map_congr_left
    intro a _
    rw [Nat.zero_add]
  have hlen : (chunk_text sentences did cs ov).length =
      (filterShort (chunkTokens sentences cs ov)).length := by
    have := congrArg List.length hids'
    simpa using this
  constructor
  · rw [hids', hlen]
  · rw [hids']
    rw [List.pairwise_map]
    apply (List.pairwise_lt_range _).imp
    intro a b hab
    intro hcontra
    exact Nat.ne_of_lt hab (mkChunkId_inj did a b hcontra)

/-- Witness for C8 at a concrete input. -/
theorem chunk_text_id_position_witness :
    0 < 10 ∧
    ((chunk_text ["A cat sat on the mat.", "A dog ran in the park."] "doc" 10 2).map
        ChunkRec.chunk_id =
      (List.range (chunk_text ["A cat sat on the mat.", "A dog ran in the park."]
        "doc" 10 2).length).map (mkChunkId "doc") ∧
    ((chunk_text ["A cat sat on the mat.", "A dog ran in the park."] "doc" 10 2).map
        ChunkRec.chunk_id).Pairwise (· ≠ ·)) :=
  ⟨by decide,
   chunk_text_id_position ["A cat sat on the mat.", "A dog ran in the park."]
     "doc" 10 2 (by decide)⟩

/-! ### Provenance-tagged segmentation loop (for the overlap property)

The spec's overlap property distinguishes chunks produced by the greedy
sentence-accumulation path from force-split blocks, and refers to the
overlap that seeded a buffer.  `chunkTokensT` runs the same loop as
`chunkTokens` while recording, for each finalized chunk, whether it came
from the greedy buffer or the force-split loop, and, for greedy chunks,
the seed `(effective_overlap, trigger_sentence_token_count)` installed by
the overflow branch (lines 115-124), if any.  `chunkTokensT_fst` proves
the tags are purely observational. -/

inductive ChunkOrigin where
  | greedy (seed : Option (Nat × Nat))
  | forced
deriving DecidableEq, Repr

structure TaggedState where
  chunks : List (List String × ChunkOrigin)
  current : List String
  curSeed : Option (Nat × Nat)
deriving DecidableEq

/-- Tagged version of `processSentence`. -/
def processSentenceT (cs ov : Nat) (st : TaggedState) (s : String) : TaggedState :=
  let sent_tokens := pySplit s
  if sent_tokens = [] then st
  else if cs < sent_tokens.length then
    let chunks1 := if st.current = [] then st.chunks
      else st.chunks ++ [(st.current, ChunkOrigin.greedy st.curSeed)]
    let stride := max 1 (cs - ov)
    let chunks2 := chunks1 ++
      (forceBlocks cs stride sent_tokens).map (fun b => (b, ChunkOrigin.forced))
    ⟨chunks2, seedFromLast ov (chunks2.map Prod.fst), none⟩
  else if st.current.length + sent_tokens.length ≤ cs then
    ⟨st.chunks, st.current ++ sent_tokens, st.curSeed⟩
  else
    let prev_tail := if st.current = [] then []
      else pyTailSlice st.current (min ov st.current.length)
    let chunks1 := if st.current = [] then st.chunks
      else st.chunks ++ [(st.current, ChunkOrigin.greedy st.curSeed)]
    let effective_overlap := min prev_tail.length (cs - sent_tokens.length)
    let seeded := if 0 < effective_overlap then pyTailSlice prev_tail effective_overlap
      else []
    ⟨chunks1, seeded ++ sent_tokens, some (effective_overlap, sent_tokens.length)⟩

/-- Tagged version of `chunkTokens`. -/
def chunkTokensT (sentences : List String) (cs ov : Nat) :
    List (List String × ChunkOrigin) :=
  let ovc := min ov (cs - 1)
  let st := sentences.foldl (processSentenceT cs ovc) ⟨[], [], none⟩
  if st.current = [] then st.chunks
  else st.chunks ++ [(st.current, ChunkOrigin.greedy st.curSeed)]

theorem processSentenceT_fst (cs ov : Nat) (st : TaggedState) (s : String) :
    (processSentenceT cs ov st s).chunks.map Prod.fst =
      (processSentence cs ov ⟨st.chunks.map Prod.fst, st.current⟩ s).chunks ∧
    (processSentenceT cs ov st s).current =
      (processSentence cs ov ⟨st.chunks.map Prod.fst, st.current⟩ s).current := by
  have hc1 : (if st.current = [] then st.chunks
      else st.chunks ++ [(st.current, ChunkOrigin.greedy st.curSeed)]).map Prod.fst =
      (if st.current = [] then st.chunks.map Prod.fst
        else st.chunks.map Prod.fst ++ [st.current]) := by
    split <;> simp
  have hblocks : ∀ bs : List (List String),
      (bs.map (fun b => (b, ChunkOrigin.forced))).map Prod.fst = bs := by
    intro bs
    simp [List.map_map, Function.comp_def]
  simp only [processSentenceT, processSentence]
  split
  · exact ⟨rfl, rfl⟩
  split
  · -- force-split path
    have hch : ((if st.current = [] then st.chunks
        else st.chunks ++ [(st.current, ChunkOrigin.greedy st.curSeed)]) ++
        (forceBlocks cs (max 1 (cs - ov)) (pySplit s)).map
          (fun b => (b, ChunkOrigin.forced))).map Prod.fst =
        (if st.current = [] then st.chunks.map Prod.fst
          else st.chunks.map Prod.fst ++ [st.current]) ++
        forceBlocks cs (max 1 (cs - ov)) (pySplit s) := by
      rw [List.map_append, hc1, hblocks]
    exact ⟨hch, congrArg (seedFromLast ov) hch⟩
  split
  · exact ⟨rfl, rfl⟩
  · exact ⟨hc1, rfl⟩

theorem foldlProcessT_fst (cs ov : Nat) (sentences : List String) :
    ∀ st : TaggedState,
      (sentences.foldl (processSentenceT cs ov) st).chunks.map Prod.fst =
        (sentences.foldl (processSentence cs ov)
          ⟨st.chunks.map Prod.fst, st.current⟩).chunks ∧
      (sentences.foldl (processSentenceT cs ov) st).current =
        (sentences.foldl (processSentence cs ov)
          ⟨st.chunks.map Prod.fst, st.current⟩).current := by
  induction sentences with
  | nil => exact fun st => ⟨rfl, rfl⟩
  | cons s rest ih =>
    intro st
    simp only [List.foldl_cons]
    obtain ⟨h1, h2⟩ := processSentenceT_fst cs ov st s
    have := ih (processSentenceT cs ov st s)
    rw [h1, h2] at this
    exact this

/-- The tags are observational: projecting them away yields `chunkTokens`. -/
theorem chunkTokensT_fst (sentences : List String) (cs ov : Nat) :
    (chunkTokensT sentences cs ov).map Prod.fst = chunkTokens sentences cs ov := by
  obtain ⟨h1, h2⟩ := foldlProcessT_fst cs (min ov (cs - 1)) sentences ⟨[], [], none⟩
  simp only [List.map_nil] at h1 h2
  simp only [chunkTokensT, chunkTokens]
  rw [← h1, ← h2]
  split
  · rfl
  · simp

/-- Taking at most the first-summand length restricts `take` to it. -/
theorem takeAppendLe (k : Nat) (l₁ l₂ : List α) (h : k ≤ l₁.length) :
    (l₁ ++ l₂).take k = l₁.take k := by
  rw [List.take_append_eq_append_take]
  have h0 : k - l₁.length = 0 := by omega
  rw [h0, List.take_zero, List.append_nil]

/-- Adjacency invariant of the tagged chunk list: whenever chunk `p+1` is a
greedy chunk whose buffer was seeded by the overflow branch with seed
`(k, ℓ)`, chunk `p` is itself a greedy chunk, `k` is the effective overlap
`min(min(overlap, len(chunk_p)), chunk_size - ℓ)` (`ℓ` the token count of
the sentence that triggered the overflow), and the trailing `k` tokens of
chunk `p` are a prefix of chunk `p+1`. -/
def PairInv (cs ov : Nat) (L : List (List String × ChunkOrigin)) : Prop :=
  ∀ (p k ℓ : Nat) (hp : p + 1 < L.length),
    (L.get ⟨p + 1, hp⟩).2 = ChunkOrigin.greedy (some (k, ℓ)) →
    (∃ sd, (L.get ⟨p, by omega⟩).2 = ChunkOrigin.greedy sd) ∧
    k = min (min ov (L.get ⟨p, by omega⟩).1.length) (cs - ℓ) ∧
    (L.get ⟨p + 1, hp⟩).1.take k =
      (L.get ⟨p, by omega⟩).1.drop ((L.get ⟨p, by omega⟩).1.length - k)

/-- Working-buffer invariant: a pending overflow seed `(k, ℓ)` describes
the tail of the last finalized chunk that now heads the buffer. -/
def SeedInv (cs ov : Nat) (st : TaggedState) : Prop :=
  ∀ k ℓ, st.curSeed = some (k, ℓ) →
    k ≤ st.current.length ∧
    ∃ c, st.chunks.getLast? = some c ∧
      (∃ sd, c.2 = ChunkOrigin.greedy sd) ∧
      k = min (min ov c.1.length) (cs - ℓ) ∧
      st.current.take k = c.1.drop (c.1.length - k)

theorem PairInv_append (cs ov : Nat) (L : List (List String × ChunkOrigin))
    (c : List String × ChunkOrigin) (hL : PairInv cs ov L)
    (hc : ∀ k ℓ, c.2 = ChunkOrigin.greedy (some (k, ℓ)) →
      ∃ d, L.getLast? = some d ∧ (∃ sd, d.2 = ChunkOrigin.greedy sd) ∧
        k = min (min ov d.1.length) (cs - ℓ) ∧
        c.1.take k = d.1.drop (d.1.length - k)) :
    PairInv cs ov (L ++ [c]) := by
  intro p k ℓ hp h2
  have hplen : p + 1 < L.length + 1 := by
    simpa using hp
  by_cases hlt : p + 1 < L.length
  · have e2 : (L ++ [c]).get ⟨p + 1, hp⟩ = L.get ⟨p + 1, hlt⟩ := by
      simp only [List.get_eq_getElem]
      exact List.getElem_append_left hlt
    have e1 : (L ++ [c]).get ⟨p, by omega⟩ = L.get ⟨p, by omega⟩ := by
      simp only [List.get_eq_getElem]
      exact List.getElem_append_left (by omega)
    rw [e2] at h2
    obtain ⟨hgr, hk, ht⟩ := hL p k ℓ hlt h2
    rw [e1, e2]
    exact ⟨hgr, hk, ht⟩
  · have hpe : p + 1 = L.length := by omega
    have e2 : (L ++ [c]).get ⟨p + 1, hp⟩ = c := by
      simp only [List.get_eq_getElem]
      exact List.getElem_concat_length L c (p + 1) hpe _
    rw [e2] at h2
    obtain ⟨d, hdlast, hgr, hk, ht⟩ := hc k ℓ h2
    have e1 : (L ++ [c]).get ⟨p, by omega⟩ = d := by
      simp only [List.get_eq_getElem]
      rw [List.getElem_append_left (by omega)]
      have hget : L[p]? = some d := by
        rw [List.getLast?_eq_getElem?] at hdlast
        have hl1 : L.length - 1 = p := by omega
        rwa [hl1] at hdlast
      rw [List.getElem?_eq_getElem (by omega)] at hget
      exact Option.some.inj hget
    rw [e1, e2]
    exact ⟨hgr, hk, ht⟩

theorem PairInv_append_forcedList (cs ov : Nat)
    (L : List (List String × ChunkOrigin)) (bs : List (List String))
    (hL : PairInv cs ov L) :
    PairInv cs ov (L ++ bs.map (fun b => (b, ChunkOrigin.forced))) := by
  intro p k ℓ hp h2
  by_cases hlt : p + 1 < L.length
  · have e2 : (L ++ bs.map (fun b => (b, ChunkOrigin.forced))).get ⟨p + 1, hp⟩ =
        L.get ⟨p + 1, hlt⟩ := by
      simp only [List.get_eq_getElem]
      exact List.getElem_append_left hlt
    have e1 : (L ++ bs.map (fun b => (b, ChunkOrigin.forced))).get ⟨p, by omega⟩ =
        L.get ⟨p, by omega⟩ := by
      simp only [List.get_eq_getElem]
      exact List.getElem_append_left (by omega)
    rw [e2] at h2
    obtain ⟨hgr, hk, ht⟩ := hL p k ℓ hlt h2
    rw [e1, e2]
    exact ⟨hgr, hk, ht⟩
  · exfalso
    have hlen := hp
    rw [List.length_append, List.length_map] at hlen
    have e2 : (L ++ bs.map (fun b => (b, ChunkOrigin.forced))).get ⟨p + 1, hp⟩ =
        (bs.map (fun b => (b, ChunkOrigin.forced))).get
          ⟨p + 1 - L.length, by rw [List.length_map]; omega⟩ := by
      simp only [List.get_eq_getElem]
      exact List.getElem_append_right (by omega)
    rw [e2] at h2
    simp only [List.get_eq_getElem, List.getElem_map] at h2
    exact ChunkOrigin.noConfusion h2

theorem pyTailSlice_eq_drop (l : List α) (k : Nat) (hk : k ≠ 0) :
    pyTailSlice l k = l.drop (l.length - k) := by
  unfold pyTailSlice
  rw [if_neg hk]

theorem processSentenceT_inv (cs ov : Nat) (st : TaggedState) (s : String)
    (hov : 0 < ov) (hP : PairInv cs ov st.chunks) (hS : SeedInv cs ov st) :
    PairInv cs ov (processSentenceT cs ov st s).chunks ∧
    SeedInv cs ov (processSentenceT cs ov st s) := by
  simp only [processSentenceT]
  split
  · exact ⟨hP, hS⟩
  next hne =>
  split
  · -- force-split path
    next hlong =>
    have hP1 : PairInv cs ov (if st.current = [] then st.chunks
        else st.chunks ++ [(st.current, ChunkOrigin.greedy st.curSeed)]) := by
      split
      · exact hP
      · apply PairInv_append cs ov _ _ hP
        intro k ℓ h2
        simp only [ChunkOrigin.greedy.injEq] at h2
        obtain ⟨hk, c, hlast, hgr, hkeq, htake⟩ := hS k ℓ h2
        exact ⟨c, hlast, hgr, hkeq, htake⟩
    constructor
    · exact PairInv_append_forcedList cs ov _ _ hP1
    · intro k ℓ hcontra
      simp at hcontra
  next hnotlong =>
  split
  · -- greedy fit
    next hfit =>
    constructor
    · exact hP
    · intro k ℓ hseed
      obtain ⟨hk, c, hlast, hgr, hkeq, htake⟩ := hS k ℓ hseed
      refine ⟨?_, c, hlast, hgr, hkeq, ?_⟩
      · rw [List.length_append]
        omega
      · rw [takeAppendLe k st.current (pySplit s) hk]
        exact htake
  · -- overflow
    next hover =>
    have hcne : st.current ≠ [] := by
      intro hc
      rw [hc] at hover
      simp only [List.length_nil, Nat.zero_add] at hover
      omega
    simp only [if_neg hcne]
    have hcpos : 0 < st.current.length := List.length_pos.mpr hcne
    have hmpos : 0 < min ov st.current.length := by omega
    have hptlen : (pyTailSlice st.current (min ov st.current.length)).length =
        min ov st.current.length := by
      rw [length_pyTailSlice]
      split
      · omega
      · omega
    constructor
    · apply PairInv_append cs ov _ _ hP
      intro k ℓ h2
      simp only [ChunkOrigin.greedy.injEq] at h2
      obtain ⟨hk, c, hlast, hgr, hkeq, htake⟩ := hS k ℓ h2
      exact ⟨c, hlast, hgr, hkeq, htake⟩
    · intro k ℓ hseed
      simp only [Option.some.injEq, Prod.mk.injEq] at hseed
      obtain ⟨rfl, rfl⟩ := hseed
      have hkform : min (pyTailSlice st.current (min ov st.current.length)).length
          (cs - (pySplit s).length) =
          min (min ov st.current.length) (cs - (pySplit s).length) := by
        rw [hptlen]
      refine ⟨?_, (st.current, ChunkOrigin.greedy st.curSeed),
        List.getLast?_concat _, ⟨st.curSeed, rfl⟩, hkform, ?_⟩
      · -- seed length is bounded by the new buffer length
        rw [List.length_append]
        split
        · next hpos =>
          have hslen2 : (pyTailSlice (pyTailSlice st.current (min ov st.current.length))
              (min (pyTailSlice st.current (min ov st.current.length)).length
                (cs - (pySplit s).length))).length =
              min (pyTailSlice st.current (min ov st.current.length)).length
                (cs - (pySplit s).length) := by
            rw [length_pyTailSlice]
            split
            · omega
            · omega
          omega
        · omega
      · -- the trailing tokens of the finalized chunk head the new buffer
        by_cases heff : 0 < min (pyTailSlice st.current (min ov st.current.length)).length
            (cs - (pySplit s).length)
        · rw [if_pos heff]
          have heffle : min (pyTailSlice st.current (min ov st.current.length)).length
              (cs - (pySplit s).length) ≤ min ov st.current.length := by
            rw [hptlen]
            omega
          have hslen : (pyTailSlice (pyTailSlice st.current (min ov st.current.length))
              (min (pyTailSlice st.current (min ov st.current.length)).length
                (cs - (pySplit s).length))).length =
              min (pyTailSlice st.current (min ov st.current.length)).length
                (cs - (pySplit s).length) := by
            rw [length_pyTailSlice]
            split
            · omega
            · rw [hptlen]
              omega
          rw [takeAppendLe _ _ _ (le_of_eq hslen.symm)]
          rw [List.take_of_length_le (le_of_eq hslen)]
          rw [pyTailSlice_eq_drop _ _ (by omega),
            pyTailSlice_eq_drop _ _ (by omega), List.drop_drop]
          dsimp only
          congr 1
          rw [List.length_drop]
          omega
        · rw [if_neg heff]
          have heff0 : min (pyTailSlice st.current (min ov st.current.length)).length
              (cs - (pySplit s).length) = 0 := by omega
          rw [heff0, List.take_zero, List.nil_eq]
          rw [Nat.sub_zero, List.drop_length]

theorem foldlProcessT_inv (cs ov : Nat) (sentences : List String) (hov : 0 < ov) :
    ∀ st : TaggedState, PairInv cs ov st.chunks → SeedInv cs ov st →
      PairInv cs ov (sentences.foldl (processSentenceT cs ov) st).chunks ∧
      SeedInv cs ov (sentences.foldl (processSentenceT cs ov) st) := by
  induction sentences with
  | nil => exact fun st hP hS => ⟨hP, hS⟩
  | cons s rest ih =>
    intro st hP hS
    obtain ⟨hP', hS'⟩ := processSentenceT_inv cs ov st s hov hP hS
    exact ih _ hP' hS'

/-- C3 (amended): in the tagged segmentation sequence, whenever chunk
`p+1` is a greedy chunk seeded by the overflow branch with seed `(k, ℓ)`
(so chunk `p` was not force-split — it is a greedy chunk — and both chunks
come from the greedy-accumulation path), `k` equals the effective overlap
`min(min(overlap_clamped, len(chunk_p)), chunk_size - ℓ)` where `ℓ` is the
token count of the sentence that triggered the overflow, and the trailing
`k` tokens of chunk `p` are a prefix of chunk `p+1`; the claim's
`min(overlap, len(chunk_p))` holds only when it does not exceed
`chunk_size - ℓ`.  Requires a positive clamped overlap. -/
theorem chunk_overlap_effective (sentences : List String) (cs ov : Nat)
    (hov : 0 < min ov (cs - 1)) :
    PairInv cs (min ov (cs - 1)) (chunkTokensT sentences cs ov) := by
  obtain ⟨hP, hS⟩ := foldlProcessT_inv cs (min ov (cs - 1)) sentences hov
    ⟨[], [], none⟩ (by intro p k ℓ hp h2; simp at hp) (by intro k ℓ h; simp at h)
  simp only [chunkTokensT]
  split
  · exact hP
  · apply PairInv_append cs (min ov (cs - 1)) _ _ hP
    intro k ℓ h2
    simp only [ChunkOrigin.greedy.injEq] at h2
    obtain ⟨hk, c, hlast, hgr, hkeq, htake⟩ := hS k ℓ h2
    exact ⟨c, hlast, hgr, hkeq, htake⟩

/-- Witness for C3 (amended) at a concrete input. -/
theorem chunk_overlap_effective_witness :
    0 < min 5 (10 - 1) ∧
    PairInv 10 (min 5 (10 - 1))
      (chunkTokensT ["a1 a2 a3 a4 a5 a6 a7 a8 a9 a10", "b1 b2 b3 b4 b5 b6 b7 b8"] 10 5) :=
  ⟨by decide,
   chunk_overlap_effective ["a1 a2 a3 a4 a5 a6 a7 a8 a9 a10", "b1 b2 b3 b4 b5 b6 b7 b8"]
     10 5 (by decide)⟩

/-- C3 counterexample: with `chunk_size = 10`, `overlap = 5` and the two
sentences below (10 and 8 tokens), both produced chunks are greedy (the
first was not force-split) and `overlap > 0`, yet the trailing
`min(overlap, len(chunk_0)) = 5` tokens of chunk 0 are not a prefix of
chunk 1: the buffer for chunk 1 was seeded with only
`effective_overlap = min(min(5, 10), 10 - 8) = 2` tokens. -/
theorem chunk_overlap_min_counterexample :
    (chunkTokensT ["a1 a2 a3 a4 a5 a6 a7 a8 a9 a10", "b1 b2 b3 b4 b5 b6 b7 b8"] 10 5).map
      Prod.snd = [ChunkOrigin.greedy none, ChunkOrigin.greedy (some (2, 8))] ∧
    (chunk_text ["a1 a2 a3 a4 a5 a6 a7 a8 a9 a10", "b1 b2 b3 b4 b5 b6 b7 b8"] "doc" 10 5).map
        (fun c => pySplit c.text) =
      [["a1", "a2", "a3", "a4", "a5", "a6", "a7", "a8", "a9", "a10"],
       ["a9", "a10", "b1", "b2", "b3", "b4", "b5", "b6", "b7", "b8"]] ∧
    ¬ ((["a9", "a10", "b1", "b2", "b3", "b4", "b5", "b6", "b7", "b8"] : List String).take
        (min 5 (["a1", "a2", "a3", "a4", "a5", "a6", "a7", "a8", "a9", "a10"] : List String).length) =
      (["a1", "a2", "a3", "a4", "a5", "a6", "a7", "a8", "a9", "a10"] : List String).drop
        ((["a1", "a2", "a3", "a4", "a5", "a6", "a7", "a8", "a9", "a10"] : List String).length -
          min 5 (["a1", "a2", "a3", "a4", "a5", "a6", "a7", "a8", "a9", "a10"] : List String).length)) := by
  refine ⟨by decide, by decide, by decide⟩

/-! ### Dict-shaped records (retriever / reranker)

Chunk records flow through `retrieve_chunks` and `rerank_chunks` as Python
dicts with string keys; values are strings (ids, text) or floats (scores).
Scores are modelled over `ℚ`: the claims below concern comparisons,
ordering and arity of the score values, never rounding. -/

inductive PyVal where
  | str (s : String)
  | num (q : ℚ)
deriving DecidableEq

/-- A Python dict with string keys as an insertion-ordered association
list with unique keys (the only shape arising in the pipeline). -/
abbrev PyDict := List (String × PyVal)

/-- Python `d.get(key)`. -/
def dlookup (d : PyDict) (key : String) : Option PyVal :=
  match d with
  | [] => none
  | (k, v) :: rest => if k = key then some v else dlookup rest key

/-- Python `d[key] = v`: overwrite in place if present, else append. -/
def dset (d : PyDict) (key : String) (v : PyVal) : PyDict :=
  match d with
  | [] => [(key, v)]
  | (k, w) :: rest => if k = key then (k, v) :: rest else (k, w) :: dset rest key v

/-- `(ch.get("text") or "")` / `c.get("text", "")` for the string-valued
records of this pipeline: the stored text, or `""` when absent. -/
def dgetText (d : PyDict) : String :=
  match dlookup d "text" with
  | some (PyVal.str s) => s
  | _ => ""

/-- Sort key of `retrieve_chunks` (line 91): `d.get("score", 0.0)`. -/
def scoreKey (d : PyDict) : ℚ :=
  match dlookup d "score" with
  | some (PyVal.num q) => q
  | _ => 0

/-- Rerank score stored by `rerank_chunks` (line 67). -/
def rerankKey (d : PyDict) : ℚ :=
  match dlookup d "rerank_score" with
  | some (PyVal.num q) => q
  | _ => 0

/-! ### Vector index (`vector_store/faiss_index.py`) -/

/-- Error outcomes of the retrieval pipeline (all `ValueError` in the
source, distinguished here by raise site). -/
inductive PipeErr where
  | indexNone
  | chunksEmpty
  | sizeMismatch (ntotal nchunks : Nat)
  | embEmpty
  | queryEmpty
  | badTopK
  | notTwoD
  | dimMismatch (qd d : Nat)
  | badShape
deriving DecidableEq

/-- Inner product of two rows. -/
def dot (u v : List ℚ) : ℚ := ((u.zip v).map (fun p => p.1 * p.2)).sum

/-- Model of `faiss.IndexFlatIP`: the dimension passed to the constructor
and the stored (added) vectors, in insertion order. -/
structure FlatIP where
  dim : Nat
  vectors : List (List ℚ)
deriving DecidableEq

def FlatIP.ntotal (ix : FlatIP) : Nat := ix.vectors.length

/-- `index.search(q, k)` on a flat inner-product index: for each query
row, every stored row is scored by inner product (exact, brute force),
the `(score, row-index)` candidates are sorted by score descending
(stable), truncated to `k`, and — as in FAISS — slots beyond the number
of stored vectors are filled with sentinel index `-1`. -/
def FlatIP.search (ix : FlatIP) (q : List (List ℚ)) (k : Nat) :
    List (List ℚ) × List (List Int) :=
  let rows := q.map (fun qv =>
    let cand := (ix.vectors.map (dot qv)).enum.map (fun p => (p.2, (p.1 : Int)))
    let top := (cand.mergeSort (fun a b => decide (b.1 ≤ a.1))).take k
    top ++ List.replicate (k - top.length) ((0 : ℚ), (-1 : Int)))
  (rows.map (fun r => r.map Prod.fst), rows.map (fun r => r.map Prod.snd))

/-- The duck-typed view of an index used by `search_index` and
`retrieve_chunks`: `getattr(index, "d", None)`,
`getattr(index, "ntotal", ...)` and the `search` method. -/
structure IndexModel where
  d : Option Nat
  ntotal : Option Nat
  rawSearch : List (List ℚ) → Nat → List (List ℚ) × List (List Int)

def FlatIP.toModel (ix : FlatIP) : IndexModel :=
  ⟨some ix.dim, some ix.ntotal, ix.search⟩

/-- Rectangularity: a list of rows denotes a 2D array (what
`_to_float32_contiguous` accepts; a ragged input would already fail the
NumPy conversion). -/
def isRect (q : List (List ℚ)) : Bool :=
  q.all (fun r => r.length = (q.headD []).length)

/-- `build_index` from `vector_store/faiss_index.py`.  A `None` argument
is not representable for a Lean value; the `size == 0` and 2D checks are
modelled, and the resulting `IndexFlatIP` stores `d = number of columns`
and all rows. -/
def build_index (embeddings : List (List ℚ)) : Except PipeErr FlatIP :=
  if (embeddings.map List.length).sum = 0 then Except.error PipeErr.embEmpty
  else if ¬ isRect embeddings then Except.error PipeErr.notTwoD
  else Except.ok ⟨(embeddings.headD []).length, embeddings⟩

/-- The search call performed after validation (lines 140-144): clamp `k`
to the vector count when the index is nonempty, then call the index. -/
def searchCore (ix : IndexModel) (q : List (List ℚ)) (top_k : Int) :
    List (List ℚ) × List (List Int) :=
  let ntotal := ix.ntotal.getD 0
  let k := if 0 < ntotal then min top_k.toNat ntotal else top_k.toNat
  ix.rawSearch q k

/-- `search_index` from `vector_store/faiss_index.py`.  `top_k` is a
Python `int`, hence `Int` with an explicit sign check; a `None` query is
not representable for a Lean value. -/
def search_index (index : Option IndexModel) (query_embeddings : List (List ℚ))
    (top_k : Int) : Except PipeErr (List (List ℚ) × List (List Int)) :=
  match index with
  | none => Except.error PipeErr.indexNone
  | some ix =>
    if (query_embeddings.map List.length).sum = 0 then Except.error PipeErr.queryEmpty
    else if top_k ≤ 0 then Except.error PipeErr.badTopK
    else if ¬ isRect query_embeddings then Except.error PipeErr.notTwoD
    else
      match ix.d with
      | some d =>
        if d ≠ (query_embeddings.headD []).length then
          Except.error (PipeErr.dimMismatch (query_embeddings.headD []).length d)
        else Except.ok (searchCore ix query_embeddings top_k)
      | none => Except.ok (searchCore ix query_embeddings top_k)

/-! ### Retriever (`retrieval/retriever.py`) -/

/-- Index-to-chunk mapping loop of `retrieve_chunks` (lines 82-88): skip
sentinel/out-of-range indices, copy the chunk dict and attach the score
(`.tolist()` of an integer ndarray never yields `None`, so the `is None`
guard is vacuous). -/
def mapHits (chunks : List PyDict) (hits : List (Int × ℚ)) : List PyDict :=
  hits.filterMap (fun (p : Int × ℚ) =>
    if p.1 < 0 then none
    else
      match chunks.get? p.1.toNat with
      | none => none
      | some c => some (dset c "score" (PyVal.num p.2)))

/-- The embed-search-map phase of `retrieve_chunks` (lines 72-88), after
validation.  `embed` is the external embedding provider composed with
`_l2_normalize` (a positive rescaling of the model's output row); the
claims below do not depend on its values. -/
def retrieveSearch (embed : String → List ℚ) (query : String)
    (ix : IndexModel) (chunks : List PyDict) (top_k : Int) :
    Except PipeErr (List PyDict) :=
  match search_index (some ix) [embed query] top_k with
  | Except.error e => Except.error e
  | Except.ok (scores, inds) =>
    match scores.head?, inds.head? with
    | some s0, some i0 => Except.ok (mapHits chunks (i0.zip s0))
    | _, _ => Except.error PipeErr.badShape

/-- `retrieve_chunks` up to (not including) the final defensive sort:
validation guards in source order (lines 58-70), then the search phase. -/
def retrieveCandidates (embed : String → List ℚ) (query : String)
    (index : Option IndexModel) (chunks : List PyDict) (top_k : Int) :
    Except PipeErr (List PyDict) :=
  match index with
  | none => Except.error PipeErr.indexNone
  | some ix =>
    if chunks = [] then Except.error PipeErr.chunksEmpty
    else if query = "" ∨ pyStrip query = "" then Except.ok []
    else
      match ix.ntotal with
      | some n =>
        if n ≠ chunks.length then Except.error (PipeErr.sizeMismatch n chunks.length)
        else retrieveSearch embed query ix chunks top_k
      | none => retrieveSearch embed query ix chunks top_k

/-- `retrieve_chunks` from `retrieval/retriever.py`: candidates followed
by the stable defensive sort by score descending (line 91, Python
`list.sort(key=..., reverse=True)`). -/
def retrieve_chunks (embed : String → List ℚ) (query : String)
    (index : Option IndexModel) (chunks : List PyDict) (top_k : Int) :
    Except PipeErr (List PyDict) :=
  (retrieveCandidates embed query index chunks top_k).map
    (fun results => results.mergeSort (fun a b => decide (scoreKey b ≤ scoreKey a)))

/-! ### Reranker (`retrieval/reranker.py`) -/

/-- Python `l[:k]` for an `int` `k` (negative `k` counts from the end). -/
def pySliceTo (l : List α) (k : Int) : List α :=
  if 0 ≤ k then l.take k.toNat else l.take (((l.length : Int) + k).toNat)

/-- `rerank_chunks` from `retrieval/reranker.py`.  `predict` is the
external cross-encoder: one score per `(query, text)` pair,
order-preserving (spec section 6). -/
def rerank_chunks (predict : List (String × String) → List ℚ) (query : String)
    (chunks : List PyDict) (top_k : Int) : List PyDict :=
  if query = "" ∨ pyStrip query = "" then []
  else if chunks = [] then []
  else
    let filtered := chunks.filter (fun ch => pyStrip (dgetText ch) ≠ "")
    if filtered = [] then []
    else
      let pairs := filtered.map (fun c => (query, dgetText c))
      let scores := predict pairs
      let rescored := (scores.zip filtered).map (fun p =>
        (p.1, dset (dset p.2 "rerank_score" (PyVal.num p.1))
          "retrieval" (PyVal.str "reranked")))
      let sorted := rescored.mergeSort (fun a b => decide (b.1 ≤ a.1))
      (pySliceTo sorted top_k).map Prod.snd

/-! ### Retriever guard behaviour (C2, C7, C10) -/

/-- C7: with a non-null index and a non-empty chunks list, an empty or
whitespace-only query returns an empty sequence without raising. -/
theorem retrieve_empty_query (embed : String → List ℚ) (query : String)
    (ix : IndexModel) (chunks : List PyDict) (top_k : Int)
    (hc : chunks ≠ []) (hq : query = "" ∨ pyStrip query = "") :
    retrieve_chunks embed query (some ix) chunks top_k = Except.ok [] := by
  simp only [retrieve_chunks, retrieveCandidates]
  rw [if_neg hc, if_pos hq]
  simp [Except.map]

/-- Witness for C7 at a concrete input. -/
theorem retrieve_empty_query_witness :
    ([[("text", PyVal.str "t")]] : List PyDict) ≠ [] ∧
    (("" : String) = "" ∨ pyStrip "" = "") ∧
    retrieve_chunks (fun _ => [1]) ""
      (some ⟨some 1, some 1, fun _ _ => ([], [])⟩)
      [[("text", PyVal.str "t")]] 5 = Except.ok [] :=
  ⟨by decide, Or.inl rfl,
   retrieve_empty_query (fun _ => [1]) ""
     ⟨some 1, some 1, fun _ _ => ([], [])⟩
     [[("text", PyVal.str "t")]] 5 (by decide) (Or.inl rfl)⟩

/-- C10: the empty-query short-circuit takes precedence over the
index/chunks count-consistency check — a blank query on a non-null index
and non-empty chunks list returns `[]` even when the count mismatches —
while a null index or an empty chunks list raise even for a blank query. -/
theorem retrieve_guard_precedence (embed : String → List ℚ) (query : String)
    (ix : IndexModel) (chunks : List PyDict) (top_k : Int) (n : Nat) :
    retrieve_chunks embed query none chunks top_k =
      Except.error PipeErr.indexNone ∧
    retrieve_chunks embed query (some ix) [] top_k =
      Except.error PipeErr.chunksEmpty ∧
    (chunks ≠ [] → (query = "" ∨ pyStrip query = "") → ix.ntotal = some n →
      n ≠ chunks.length →
      retrieve_chunks embed query (some ix) chunks top_k = Except.ok []) := by
  refine ⟨rfl, rfl, ?_⟩
  intro hc hq _ _
  simp only [retrieve_chunks, retrieveCandidates]
  rw [if_neg hc, if_pos hq]
  simp [Except.map]

/-- Witness for C10 at a concrete input (index count 5, 4 chunks, blank
query). -/
theorem retrieve_guard_precedence_witness :
    retrieve_chunks (fun _ => [1]) "  " none
      [[("text", PyVal.str "t1")]] 5 = Except.error PipeErr.indexNone ∧
    retrieve_chunks (fun _ => [1]) "  "
      (some ⟨some 1, some 5, fun _ _ => ([], [])⟩) [] 5 =
      Except.error PipeErr.chunksEmpty ∧
    retrieve_chunks (fun _ => [1]) "  "
      (some ⟨some 1, some 5, fun _ _ => ([], [])⟩)
      [[("text", PyVal.str "t1")], [("text", PyVal.str "t2")],
       [("text", PyVal.str "t3")], [("text", PyVal.str "t4")]] 5 = Except.ok [] := by
  obtain ⟨h1, h2, h3⟩ := retrieve_guard_precedence (fun _ => [1]) "  "
    ⟨some 1, some 5, fun _ _ => ([], [])⟩
    [[("text", PyVal.str "t1")], [("text", PyVal.str "t2")],
     [("text", PyVal.str "t3")], [("text", PyVal.str "t4")]] 5 5
  exact ⟨h1, h2, h3 (by decide) (Or.inr (by decide)) rfl (by decide)⟩

/-- C2 (amended): for every call with a non-blank query, if the index
exposes a count that differs from `len(chunks)`, `retrieve_chunks` raises
the size-mismatch error and does not proceed to the search. -/
theorem retrieve_mismatch_raises (embed : String → List ℚ) (query : String)
    (ix : IndexModel) (chunks : List PyDict) (top_k : Int) (n : Nat)
    (hq : ¬(query = "" ∨ pyStrip query = "")) (hc : chunks ≠ [])
    (hn : ix.ntotal = some n) (hne : n ≠ chunks.length) :
    retrieve_chunks embed query (some ix) chunks top_k =
      Except.error (PipeErr.sizeMismatch n chunks.length) := by
  simp only [retrieve_chunks, retrieveCandidates, hn]
  rw [if_neg hc, if_neg hq]
  rw [if_pos hne]
  rfl

/-- Witness for C2 (amended): an index built from 5 embeddings queried
(with a real query) against 4 chunks raises the mismatch error. -/
theorem retrieve_mismatch_raises_witness :
    build_index [[(1 : ℚ)], [2], [3], [4], [5]] =
      Except.ok ⟨1, [[(1 : ℚ)], [2], [3], [4], [5]]⟩ ∧
    (FlatIP.toModel ⟨1, [[(1 : ℚ)], [2], [3], [4], [5]]⟩).ntotal = some 5 ∧
    retrieve_chunks (fun _ => [1]) "where"
      (some (FlatIP.toModel ⟨1, [[(1 : ℚ)], [2], [3], [4], [5]]⟩))
      [[("text", PyVal.str "t1")], [("text", PyVal.str "t2")],
       [("text", PyVal.str "t3")], [("text", PyVal.str "t4")]] 5 =
      Except.error (PipeErr.sizeMismatch 5 4) :=
  ⟨rfl, rfl,
   retrieve_mismatch_raises (fun _ => [1]) "where"
     (FlatIP.toModel ⟨1, [[(1 : ℚ)], [2], [3], [4], [5]]⟩)
     [[("text", PyVal.str "t1")], [("text", PyVal.str "t2")],
      [("text", PyVal.str "t3")], [("text", PyVal.str "t4")]] 5 5
     (by decide) (by decide) rfl (by decide)⟩

/-- C2 counterexample: the same mismatched pair (index count 5, 4 chunks)
does not raise when the query is empty — the empty-query short-circuit
runs first and returns `[]` — so the claim does not hold for every call. -/
theorem retrieve_mismatch_counterexample :
    (FlatIP.toModel ⟨1, [[(1 : ℚ)], [2], [3], [4], [5]]⟩).ntotal = some 5 ∧
    ([[("text", PyVal.str "t1")], [("text", PyVal.str "t2")],
      [("text", PyVal.str "t3")], [("text", PyVal.str "t4")]] : List PyDict).length = 4 ∧
    retrieve_chunks (fun _ => [1]) ""
      (some (FlatIP.toModel ⟨1, [[(1 : ℚ)], [2], [3], [4], [5]]⟩))
      [[("text", PyVal.str "t1")], [("text", PyVal.str "t2")],
       [("text", PyVal.str "t3")], [("text", PyVal.str "t4")]] 5 = Except.ok [] := by
  refine ⟨rfl, rfl, ?_⟩
  simp [retrieve_chunks, retrieveCandidates, Except.map]

/-! ### Top-k clamp (C4) -/

theorem enumFrom_fst_lt :
    ∀ (l : List α) (n : Nat), ∀ p ∈ l.enumFrom n, p.1 < n + l.length := by
  intro l
  induction l with
  | nil =>
    intro n p hp
    simp [List.enumFrom] at hp
  | cons a as ih =>
    intro n p hp
    rw [List.enumFrom] at hp
    rcases List.mem_cons.mp hp with rfl | hp'
    · simp
    · have := ih (n + 1) p hp'
      simp only [List.length_cons]
      omega

theorem enum_fst_lt {l : List α} : ∀ p ∈ l.enum, p.1 < l.length := by
  intro p hp
  have := enumFrom_fst_lt l 0 p hp
  omega

/-- Row shape of the model flat search when `k` does not exceed the
vector count: each result row has exactly `k` entries and every index
entry is a valid row index (no `-1` sentinel). -/
theorem flatSearch_rows (ix : FlatIP) (q : List (List ℚ)) (k : Nat)
    (hkN : k ≤ ix.ntotal) :
    (ix.search q k).1.length = q.length ∧
    (ix.search q k).2.length = q.length ∧
    (∀ row ∈ (ix.search q k).1, row.length = k) ∧
    (∀ row ∈ (ix.search q k).2, row.length = k) ∧
    (∀ row ∈ (ix.search q k).2, ∀ e ∈ row, 0 ≤ e ∧ e < (ix.ntotal : Int)) := by
  have hlen : ∀ qv : List ℚ,
      (((ix.vectors.map (dot qv)).enum.map
          (fun p => (p.2, (p.1 : Int)))).mergeSort
        (fun a b => decide (b.1 ≤ a.1))).length = ix.ntotal := by
    intro qv
    rw [List.length_mergeSort, List.length_map, List.enum_length, List.length_map]
    rfl
  have hrowlen : ∀ qv : List ℚ,
      ((((ix.vectors.map (dot qv)).enum.map
            (fun p => (p.2, (p.1 : Int)))).mergeSort
          (fun a b => decide (b.1 ≤ a.1))).take k ++
        List.replicate (k - ((((ix.vectors.map (dot qv)).enum.map
            (fun p => (p.2, (p.1 : Int)))).mergeSort
          (fun a b => decide (b.1 ≤ a.1))).take k).length)
          ((0 : ℚ), (-1 : Int))).length = k := by
    intro qv
    rw [List.length_append, List.length_take, hlen, List.length_replicate]
    omega
  refine ⟨?_, ?_, ?_, ?_, ?_⟩
  · simp [FlatIP.search]
  · simp [FlatIP.search]
  · intro row hrow
    simp only [FlatIP.search, List.map_map, List.mem_map] at hrow
    obtain ⟨qv, -, rfl⟩ := hrow
    simp only [Function.comp_apply, List.length_map]
    exact hrowlen qv
  · intro row hrow
    simp only [FlatIP.search, List.map_map, List.mem_map] at hrow
    obtain ⟨qv, -, rfl⟩ := hrow
    simp only [Function.comp_apply, List.length_map]
    exact hrowlen qv
  · intro row hrow e he
    simp only [FlatIP.search, List.map_map, List.mem_map] at hrow
    obtain ⟨qv, -, rfl⟩ := hrow
    simp only [Function.comp_apply, List.mem_map] at he
    obtain ⟨p, hp, rfl⟩ := he
    have hrep : k - ((((ix.vectors.map (dot qv)).enum.map
        (fun p => (p.2, (p.1 : Int)))).mergeSort
        (fun a b => decide (b.1 ≤ a.1))).take k).length = 0 := by
      rw [List.length_take, hlen]
      omega
    rw [hrep] at hp
    simp only [List.replicate_zero, List.append_nil] at hp
    have hp1 := List.mem_of_mem_take hp
    rw [List.mem_mergeSort] at hp1
    simp only [List.mem_map] at hp1
    obtain ⟨pr, hpr, rfl⟩ := hp1
    have hlt : pr.1 < ix.vectors.length := by
      have := enum_fst_lt pr hpr
      rwa [List.length_map] at this
    constructor
    · exact Int.ofNat_nonneg pr.1
    · show (pr.1 : Int) < (ix.ntotal : Int)
      exact_mod_cast hlt

/-- C4: on an index holding `N > 0` vectors, for every valid query batch
`search_index` returns score and index matrices with exactly
`K = min(top_k, N)` columns per query row and no sentinel/invalid
entries; e.g. `top_k = 1000` on an index of 3 vectors yields exactly 3
valid results per query. -/
theorem search_topk_clamp (ix : FlatIP) (q : List (List ℚ)) (top_k : Int)
    (hN : 0 < ix.ntotal) (hk : 0 < top_k)
    (hq : (q.map List.length).sum ≠ 0) (hrect : isRect q = true)
    (hd : ix.dim = (q.headD []).length) :
    search_index (some ix.toModel) q top_k =
      Except.ok (ix.search q (min top_k.toNat ix.ntotal)) ∧
    (ix.search q (min top_k.toNat ix.ntotal)).1.length = q.length ∧
    (ix.search q (min top_k.toNat ix.ntotal)).2.length = q.length ∧
    (∀ row ∈ (ix.search q (min top_k.toNat ix.ntotal)).1,
      row.length = min top_k.toNat ix.ntotal) ∧
    (∀ row ∈ (ix.search q (min top_k.toNat ix.ntotal)).2,
      row.length = min top_k.toNat ix.ntotal) ∧
    (∀ row ∈ (ix.search q (min top_k.toNat ix.ntotal)).2,
      ∀ e ∈ row, 0 ≤ e ∧ e < (ix.ntotal : Int)) := by
  obtain ⟨h1, h2, h3, h4, h5⟩ :=
    flatSearch_rows ix q (min top_k.toNat ix.ntotal) (min_le_right _ _)
  refine ⟨?_, h1, h2, h3, h4, h5⟩
  simp only [search_index, FlatIP.toModel]
  rw [if_neg hq, if_neg (by omega : ¬ top_k ≤ 0),
    if_neg (fun h => h hrect)]
  rw [if_neg (fun h => h hd)]
  simp only [searchCore, Option.getD]
  rw [if_pos hN]

/-- Witness for C4: `top_k = 1000` on an index of 3 one-dimensional
vectors. -/
theorem search_topk_clamp_witness :
    0 < (FlatIP.ntotal ⟨1, [[(1 : ℚ)], [2], [3]]⟩) ∧ 0 < (1000 : Int) ∧
    (([[(1 : ℚ)]] : List (List ℚ)).map List.length).sum ≠ 0 ∧
    isRect [[(1 : ℚ)]] = true ∧
    (FlatIP.dim ⟨1, [[(1 : ℚ)], [2], [3]]⟩ =
      (([[(1 : ℚ)]] : List (List ℚ)).headD []).length) ∧
    min (1000 : Int).toNat (FlatIP.ntotal ⟨1, [[(1 : ℚ)], [2], [3]]⟩) = 3 ∧
    search_index (some (FlatIP.toModel ⟨1, [[(1 : ℚ)], [2], [3]]⟩)) [[(1 : ℚ)]] 1000 =
      Except.ok (FlatIP.search ⟨1, [[(1 : ℚ)], [2], [3]]⟩ [[(1 : ℚ)]]
        (min (1000 : Int).toNat (FlatIP.ntotal ⟨1, [[(1 : ℚ)], [2], [3]]⟩))) :=
  ⟨by decide, by decide, by decide, by decide, by decide, by decide,
   (search_topk_clamp ⟨1, [[(1 : ℚ)], [2], [3]]⟩ [[(1 : ℚ)]] 1000
     (by decide) (by decide) (by decide) (by decide) (by decide)).1⟩

/-! ### Score ordering and stability (C5) -/

/-- C5: every successful `retrieve_chunks` call returns the candidate
list sorted by score in non-increasing order (consecutive scores are
non-increasing), and among equal scores the candidate (index-return)
order is preserved: filtering the output at any fixed score yields the
candidates with that score in their original order. -/
theorem retrieve_sorted_stable (embed : String → List ℚ) (query : String)
    (index : Option IndexModel) (chunks : List PyDict) (top_k : Int)
    (pre : List PyDict)
    (h : retrieveCandidates embed query index chunks top_k = Except.ok pre) :
    retrieve_chunks embed query index chunks top_k =
      Except.ok (pre.mergeSort (fun a b => decide (scoreKey b ≤ scoreKey a))) ∧
    (∀ i, (hi : i + 1 <
        (pre.mergeSort (fun a b => decide (scoreKey b ≤ scoreKey a))).length) →
      scoreKey ((pre.mergeSort (fun a b => decide (scoreKey b ≤ scoreKey a))).get
          ⟨i + 1, hi⟩) ≤
        scoreKey ((pre.mergeSort (fun a b => decide (scoreKey b ≤ scoreKey a))).get
          ⟨i, by omega⟩)) ∧
    (∀ s : ℚ,
      (pre.mergeSort (fun a b => decide (scoreKey b ≤ scoreKey a))).filter
          (fun d => decide (scoreKey d = s)) =
        pre.filter (fun d => decide (scoreKey d = s))) := by
  have htrans : ∀ (a b c : PyDict),
      (fun a b => decide (scoreKey b ≤ scoreKey a)) a b →
      (fun a b => decide (scoreKey b ≤ scoreKey a)) b c →
      (fun a b => decide (scoreKey b ≤ scoreKey a)) a c := by
    intro a b c hab hbc
    simp only [decide_eq_true_eq] at hab hbc ⊢
    exact le_trans hbc hab
  have htotal : ∀ (a b : PyDict),
      ((fun a b => decide (scoreKey b ≤ scoreKey a)) a b ||
        (fun a b => decide (scoreKey b ≤ scoreKey a)) b a) := by
    intro a b
    simp only [Bool.or_eq_true, decide_eq_true_eq]
    exact le_total _ _
  refine ⟨?_, ?_, ?_⟩
  · simp only [retrieve_chunks, h]
    rfl
  · intro i hi
    have hsorted := List.sorted_mergeSort htrans htotal pre
    have hij := List.pairwise_iff_get.mp hsorted ⟨i, by omega⟩ ⟨i + 1, hi⟩
      (by simp)
    simpa using hij
  · intro s
    have hperm := List.mergeSort_perm pre (fun a b => decide (scoreKey b ≤ scoreKey a))
    have hfsub : List.Sublist (pre.filter (fun d => decide (scoreKey d = s))) pre :=
      List.filter_sublist pre
    have hpw : (pre.filter (fun d => decide (scoreKey d = s))).Pairwise
        (fun a b => decide (scoreKey b ≤ scoreKey a)) := by
      apply List.pairwise_of_forall_mem_list
      intro a ha b hb
      have ha' := (List.mem_filter.mp ha).2
      have hb' := (List.mem_filter.mp hb).2
      simp only [decide_eq_true_eq] at ha' hb' ⊢
      rw [ha', hb']
    have hsub2 := List.sublist_mergeSort htrans htotal hpw hfsub
    have hsub3 := List.Sublist.filter (fun d => decide (scoreKey d = s)) hsub2
    have hidem : (pre.filter (fun d => decide (scoreKey d = s))).filter
        (fun d => decide (scoreKey d = s)) =
        pre.filter (fun d => decide (scoreKey d = s)) :=
      List.filter_eq_self.mpr (fun a ha => (List.mem_filter.mp ha).2)
    rw [hidem] at hsub3
    have hlencheck : (pre.filter (fun d => decide (scoreKey d = s))).length =
        ((pre.mergeSort (fun a b => decide (scoreKey b ≤ scoreKey a))).filter
          (fun d => decide (scoreKey d = s))).length :=
      (List.Perm.length_eq (hperm.filter _)).symm
    exact (hsub3.eq_of_length hlencheck).symm

/-- Witness for C5 at a concrete input. -/
theorem retrieve_sorted_stable_witness :
    retrieveCandidates (fun _ => [(1 : ℚ)]) "q"
      (some ⟨some 1, some 2, fun _ _ => ([[(1 : ℚ), 2]], [[0, 1]])⟩)
      [[("text", PyVal.str "ta")], [("text", PyVal.str "tb")]] 5 =
      Except.ok [[("text", PyVal.str "ta"), ("score", PyVal.num 1)],
        [("text", PyVal.str "tb"), ("score", PyVal.num 2)]] ∧
    retrieve_chunks (fun _ => [(1 : ℚ)]) "q"
      (some ⟨some 1, some 2, fun _ _ => ([[(1 : ℚ), 2]], [[0, 1]])⟩)
      [[("text", PyVal.str "ta")], [("text", PyVal.str "tb")]] 5 =
      Except.ok (([[("text", PyVal.str "ta"), ("score", PyVal.num 1)],
        [("text", PyVal.str "tb"), ("score", PyVal.num 2)]] : List PyDict).mergeSort
          (fun a b => decide (scoreKey b ≤ scoreKey a))) :=
  ⟨rfl,
   (retrieve_sorted_stable (fun _ => [(1 : ℚ)]) "q"
     (some ⟨some 1, some 2, fun _ _ => ([[(1 : ℚ), 2]], [[0, 1]])⟩)
     [[("text", PyVal.str "ta")], [("text", PyVal.str "tb")]] 5
     [[("text", PyVal.str "ta"), ("score", PyVal.num 1)],
      [("text", PyVal.str "tb"), ("score", PyVal.num 2)]] rfl).1⟩

/-! ### Reranker truncation and ordering (C6) -/

theorem dlookup_dset_self (d : PyDict) (k : String) (v : PyVal) :
    dlookup (dset d k v) k = some v := by
  induction d with
  | nil => simp [dset, dlookup]
  | cons kv rest ih =>
    obtain ⟨k0, w⟩ := kv
    by_cases hk : k0 = k
    · simp [dset, dlookup, hk]
    · simp [dset, dlookup, hk, ih]

theorem dlookup_dset_other (d : PyDict) (k k' : String) (v : PyVal)
    (h : ¬ k' = k) : dlookup (dset d k v) k' = dlookup d k' := by
  induction d with
  | nil =>
    simp only [dset, dlookup]
    rw [if_neg (fun hc => h hc.symm)]
  | cons kv rest ih =>
    obtain ⟨k0, w⟩ := kv
    by_cases hk : k0 = k
    · subst hk
      simp only [dset, if_pos rfl, dlookup]
      rw [if_neg (fun hc => h hc.symm), if_neg (fun hc => h hc.symm)]
    · simp only [dset, if_neg hk, dlookup]
      by_cases hk' : k0 = k'
      · rw [if_pos hk', if_pos hk']
      · rw [if_neg hk', if_neg hk', ih]

/-- Attaching the rerank fields leaves the text unchanged. -/
theorem dgetText_dset_scores (d : PyDict) (q : ℚ) :
    dgetText (dset (dset d "rerank_score" (PyVal.num q))
      "retrieval" (PyVal.str "reranked")) = dgetText d := by
  unfold dgetText
  rw [dlookup_dset_other _ _ _ _ (by decide), dlookup_dset_other _ _ _ _ (by decide)]

/-- The stored rerank score of a rescored record. -/
theorem rerankKey_dset (d : PyDict) (q : ℚ) :
    rerankKey (dset (dset d "rerank_score" (PyVal.num q))
      "retrieval" (PyVal.str "reranked")) = q := by
  unfold rerankKey
  rw [dlookup_dset_other _ _ _ _ (by decide), dlookup_dset_self]

/-- C6: with a non-blank query and a non-empty candidate list, `rerank`
drops candidates with empty/whitespace-only text and returns exactly
`min(top_k, number of surviving candidates)` items, each with non-blank
text, sorted by rerank score in non-increasing order. -/
theorem rerank_filter_truncate (predict : List (String × String) → List ℚ)
    (query : String) (chunks : List PyDict) (top_k : Int)
    (hq : ¬(query = "" ∨ pyStrip query = "")) (hc : chunks ≠ []) (hk : 0 ≤ top_k)
    (hlen : (predict ((chunks.filter (fun ch => pyStrip (dgetText ch) ≠ "")).map
        (fun c => (query, dgetText c)))).length =
      (chunks.filter (fun ch => pyStrip (dgetText ch) ≠ "")).length) :
    (rerank_chunks predict query chunks top_k).length =
      min top_k.toNat (chunks.filter (fun ch => pyStrip (dgetText ch) ≠ "")).length ∧
    (∀ d ∈ rerank_chunks predict query chunks top_k, pyStrip (dgetText d) ≠ "") ∧
    (∀ i, (hi : i + 1 < (rerank_chunks predict query chunks top_k).length) →
      rerankKey ((rerank_chunks predict query chunks top_k).get ⟨i + 1, hi⟩) ≤
        rerankKey ((rerank_chunks predict query chunks top_k).get ⟨i, by omega⟩)) := by
  have hunfold : rerank_chunks predict query chunks top_k =
      if chunks.filter (fun ch => pyStrip (dgetText ch) ≠ "") = [] then []
      else
        (pySliceTo ((((predict ((chunks.filter
              (fun ch => pyStrip (dgetText ch) ≠ "")).map
            (fun c => (query, dgetText c)))).zip
            (chunks.filter (fun ch => pyStrip (dgetText ch) ≠ ""))).map (fun p =>
          (p.1, dset (dset p.2 "rerank_score" (PyVal.num p.1))
            "retrieval" (PyVal.str "reranked")))).mergeSort
            (fun a b => decide (b.1 ≤ a.1))) top_k).map Prod.snd := by
    simp only [rerank_chunks]
    rw [if_neg hq, if_neg hc]
  by_cases hf : chunks.filter (fun ch => pyStrip (dgetText ch) ≠ "") = []
  · rw [hunfold, if_pos hf, hf]
    refine ⟨by simp, by simp, ?_⟩
    intro i hi
    simp at hi
  · rw [hunfold, if_neg hf]
    set filtered := chunks.filter (fun ch => pyStrip (dgetText ch) ≠ "") with hfil
    set rescored := ((predict (filtered.map (fun c => (query, dgetText c)))).zip
      filtered).map (fun p =>
        (p.1, dset (dset p.2 "rerank_score" (PyVal.num p.1))
          "retrieval" (PyVal.str "reranked"))) with hres
    set sorted := rescored.mergeSort (fun a b => decide (b.1 ≤ a.1)) with hsortdef
    have hreslen : rescored.length = filtered.length := by
      rw [hres, List.length_map, List.length_zip, hlen, Nat.min_self]
    have hsortlen : sorted.length = filtered.length := by
      rw [hsortdef, List.length_mergeSort, hreslen]
    have hslice : pySliceTo sorted top_k = sorted.take top_k.toNat := by
      rw [pySliceTo, if_pos hk]
    have hmem : ∀ p ∈ rescored, p.1 = rerankKey p.2 ∧ pyStrip (dgetText p.2) ≠ "" := by
      intro p hp
      rw [hres] at hp
      simp only [List.mem_map] at hp
      obtain ⟨pr, hpr, rfl⟩ := hp
      have hch : pr.2 ∈ filtered := by
        have := List.of_mem_zip (a := pr.1) (b := pr.2) (by simpa using hpr)
        exact this.2
      refine ⟨(rerankKey_dset pr.2 pr.1).symm, ?_⟩
      show pyStrip (dgetText (dset (dset pr.2 "rerank_score" (PyVal.num pr.1))
        "retrieval" (PyVal.str "reranked"))) ≠ ""
      rw [dgetText_dset_scores]
      have hprop := (List.mem_filter.mp (hfil ▸ hch)).2
      simpa using hprop
    have htrans2 : ∀ (a b c : ℚ × PyDict),
        (fun a b => decide (b.1 ≤ a.1)) a b →
        (fun a b => decide (b.1 ≤ a.1)) b c →
        (fun a b => decide (b.1 ≤ a.1)) a c := by
      intro a b c hab hbc
      simp only [decide_eq_true_eq] at hab hbc ⊢
      exact le_trans hbc hab
    have htotal2 : ∀ (a b : ℚ × PyDict),
        ((fun a b => decide (b.1 ≤ a.1)) a b ||
          (fun a b => decide (b.1 ≤ a.1)) b a) := by
      intro a b
      simp only [Bool.or_eq_true, decide_eq_true_eq]
      exact le_total _ _
    have hsorted : sorted.Pairwise (fun a b => (fun a b => decide (b.1 ≤ a.1)) a b) := by
      rw [hsortdef]
      exact List.sorted_mergeSort htrans2 htotal2 rescored
    have htakemem : ∀ p ∈ sorted.take top_k.toNat, p ∈ rescored := by
      intro p hp
      have := List.mem_of_mem_take hp
      rw [hsortdef, List.mem_mergeSort] at this
      exact this
    have hpairs : ((sorted.take top_k.toNat).map Prod.snd).Pairwise
        (fun a b => rerankKey b ≤ rerankKey a) := by
      rw [List.pairwise_map]
      have htake : (sorted.take top_k.toNat).Pairwise
          (fun a b => (fun a b => decide (b.1 ≤ a.1)) a b) :=
        hsorted.sublist (List.take_sublist _ _)
      apply htake.imp_of_mem
      intro a b ha hb hab
      have ha' := hmem a (htakemem a ha)
      have hb' := hmem b (htakemem b hb)
      simp only [decide_eq_true_eq] at hab
      rw [← ha'.1, ← hb'.1]
      exact hab
    refine ⟨?_, ?_, ?_⟩
    · rw [hslice, List.length_map, List.length_take, hsortlen]
    · intro d hd
      rw [hslice] at hd
      simp only [List.mem_map] at hd
      obtain ⟨p, hp, rfl⟩ := hd
      exact (hmem p (htakemem p hp)).2
    · rw [← hslice] at hpairs
      intro i hi
      have hij := List.pairwise_iff_get.mp hpairs ⟨i, by omega⟩ ⟨i + 1, hi⟩ (by simp)
      exact hij

/-- Witness for C6: 10 candidates, `top_k = 3`, exactly 3 results. -/
theorem rerank_filter_truncate_witness :
    ¬(("what" : String) = "" ∨ pyStrip "what" = "") ∧
    ([[("text", PyVal.str "c1")], [("text", PyVal.str "c2")],
      [("text", PyVal.str "c3")], [("text", PyVal.str "c4")],
      [("text", PyVal.str "c5")], [("text", PyVal.str "c6")],
      [("text", PyVal.str "c7")], [("text", PyVal.str "c8")],
      [("text", PyVal.str "c9")], [("text", PyVal.str "c10")]] : List PyDict) ≠ [] ∧
    (0 : Int) ≤ 3 ∧
    min (3 : Int).toNat
      (([[("text", PyVal.str "c1")], [("text", PyVal.str "c2")],
        [("text", PyVal.str "c3")], [("text", PyVal.str "c4")],
        [("text", PyVal.str "c5")], [("text", PyVal.str "c6")],
        [("text", PyVal.str "c7")], [("text", PyVal.str "c8")],
        [("text", PyVal.str "c9")], [("text", PyVal.str "c10")]] : List PyDict).filter
        (fun ch => pyStrip (dgetText ch) ≠ "")).length = 3 ∧
    (rerank_chunks (fun ps => ps.map (fun _ => (1 : ℚ))) "what"
      [[("text", PyVal.str "c1")], [("text", PyVal.str "c2")],
       [("text", PyVal.str "c3")], [("text", PyVal.str "c4")],
       [("text", PyVal.str "c5")], [("text", PyVal.str "c6")],
       [("text", PyVal.str "c7")], [("text", PyVal.str "c8")],
       [("text", PyVal.str "c9")], [("text", PyVal.str "c10")]] 3).length =
      min (3 : Int).toNat
        (([[("text", PyVal.str "c1")], [("text", PyVal.str "c2")],
          [("text", PyVal.str "c3")], [("text", PyVal.str "c4")],
          [("text", PyVal.str "c5")], [("text", PyVal.str "c6")],
          [("text", PyVal.str "c7")], [("text", PyVal.str "c8")],
          [("text", PyVal.str "c9")], [("text", PyVal.str "c10")]] : List PyDict).filter
          (fun ch => pyStrip (dgetText ch) ≠ "")).length :=
  ⟨by decide, by decide, by decide, by decide,
   (rerank_filter_truncate (fun ps => ps.map (fun _ => (1 : ℚ))) "what"
     [[("text", PyVal.str "c1")], [("text", PyVal.str "c2")],
      [("text", PyVal.str "c3")], [("text", PyVal.str "c4")],
      [("text", PyVal.str "c5")], [("text", PyVal.str "c6")],
      [("text", PyVal.str "c7")], [("text", PyVal.str "c8")],
      [("text", PyVal.str "c9")], [("text", PyVal.str "c10")]] 3
     (by decide) (by decide) (by decide) rfl).1⟩

/-! ### Frame discipline of score attachment (C9)

In Python, `item = dict(chunks[idx]); item["score"] = float(score)`
(retriever.py lines 86-87) and `item = dict(ch);
item["rerank_score"] = ...; item["retrieval"] = "reranked"`
(reranker.py lines 66-68) copy the dict before writing.  To state that
the caller's records are never mutated, the two result-building loops are
run against an explicit heap of dict cells: addresses are list indices,
the caller's `chunks` list holds addresses, and `dict(...)` allocates a
new cell at the end of the heap.  The claim is the frame property: the
prefix of the heap holding the caller's cells is unchanged, and every
result address is a fresh cell. -/

/-- The retriever loop (lines 83-88) on an explicit heap: for each
`(idx, score)` hit, skip invalid indices, copy the addressed chunk cell,
attach the score to the copy, and append the copy as a fresh cell. -/
def retrieveLoopH (heap : List PyDict) (chunkAddrs : List Nat)
    (hits : List (Int × ℚ)) : List PyDict × List Nat :=
  hits.foldl (fun (acc : List PyDict × List Nat) (p : Int × ℚ) =>
    if p.1 < 0 then acc
    else
      match chunkAddrs.get? p.1.toNat with
      | none => acc
      | some addr =>
        match acc.1.get? addr with
        | none => acc
        | some cell =>
          (acc.1 ++ [dset cell "score" (PyVal.num p.2)], acc.2 ++ [acc.1.length]))
    (heap, [])

/-- The reranker rescoring loop (lines 64-69) on an explicit heap: for
each `(score, chunk-address)` pair, copy the cell, attach the rerank
fields to the copy, and append it as a fresh cell. -/
def rerankLoopH (heap : List PyDict) (pairs : List (ℚ × Nat)) :
    List PyDict × List Nat :=
  pairs.foldl (fun acc p =>
    match acc.1.get? p.2 with
    | none => acc
    | some cell =>
      (acc.1 ++ [dset (dset cell "rerank_score" (PyVal.num p.1))
          "retrieval" (PyVal.str "reranked")], acc.2 ++ [acc.1.length]))
    (heap, [])

theorem retrieveLoopH_extends (chunkAddrs : List Nat) :
    ∀ (hits : List (Int × ℚ)) (acc : List PyDict × List Nat),
      ∃ ext, (hits.foldl (fun (acc : List PyDict × List Nat) (p : Int × ℚ) =>
        if p.1 < 0 then acc
        else
          match chunkAddrs.get? p.1.toNat with
          | none => acc
          | some addr =>
            match acc.1.get? addr with
            | none => acc
            | some cell =>
              (acc.1 ++ [dset cell "score" (PyVal.num p.2)],
               acc.2 ++ [acc.1.length])) acc).1 = acc.1 ++ ext ∧
      ∀ a ∈ (hits.foldl (fun (acc : List PyDict × List Nat) (p : Int × ℚ) =>
        if p.1 < 0 then acc
        else
          match chunkAddrs.get? p.1.toNat with
          | none => acc
          | some addr =>
            match acc.1.get? addr with
            | none => acc
            | some cell =>
              (acc.1 ++ [dset cell "score" (PyVal.num p.2)],
               acc.2 ++ [acc.1.length])) acc).2,
        a ∈ acc.2 ∨ acc.1.length ≤ a := by
  intro hits
  induction hits with
  | nil =>
    intro acc
    exact ⟨[], by simp, fun a ha => Or.inl ha⟩
  | cons p rest ih =>
    intro acc
    simp only [List.foldl_cons]
    by_cases hneg : p.1 < 0
    · rw [if_pos hneg]
      exact ih acc
    · rw [if_neg hneg]
      cases haddr : chunkAddrs.get? p.1.toNat with
      | none =>
        simp only []
        exact ih acc
      | some addr =>
        simp only []
        cases hcell : acc.1.get? addr with
        | none =>
          simp only []
          exact ih acc
        | some cell =>
          simp only []
          obtain ⟨ext, hext, hmem⟩ :=
            ih (acc.1 ++ [dset cell "score" (PyVal.num p.2)], acc.2 ++ [acc.1.length])
          refine ⟨[dset cell "score" (PyVal.num p.2)] ++ ext, ?_, ?_⟩
          · rw [hext, List.append_assoc]
          · intro a ha
            rcases hmem a ha with h | h
            · rcases List.mem_append.mp h with h' | h'
              · exact Or.inl h'
              · rw [List.mem_singleton] at h'
                subst h'
                exact Or.inr (Nat.le_refl _)
            · rw [List.length_append] at h
              exact Or.inr (by omega)

theorem rerankLoopH_extends :
    ∀ (pairs : List (ℚ × Nat)) (acc : List PyDict × List Nat),
      ∃ ext, (pairs.foldl (fun acc p =>
        match acc.1.get? p.2 with
        | none => acc
        | some cell =>
          (acc.1 ++ [dset (dset cell "rerank_score" (PyVal.num p.1))
              "retrieval" (PyVal.str "reranked")], acc.2 ++ [acc.1.length])) acc).1 =
        acc.1 ++ ext ∧
      ∀ a ∈ (pairs.foldl (fun acc p =>
        match acc.1.get? p.2 with
        | none => acc
        | some cell =>
          (acc.1 ++ [dset (dset cell "rerank_score" (PyVal.num p.1))
              "retrieval" (PyVal.str "reranked")], acc.2 ++ [acc.1.length])) acc).2,
        a ∈ acc.2 ∨ acc.1.length ≤ a := by
  intro pairs
  induction pairs with
  | nil =>
    intro acc
    exact ⟨[], by simp, fun a ha => Or.inl ha⟩
  | cons p rest ih =>
    intro acc
    simp only [List.foldl_cons]
    cases hcell : acc.1.get? p.2 with
    | none =>
      simp only []
      exact ih acc
    | some cell =>
      simp only []
      obtain ⟨ext, hext, hmem⟩ := ih
        (acc.1 ++ [dset (dset cell "rerank_score" (PyVal.num p.1))
          "retrieval" (PyVal.str "reranked")], acc.2 ++ [acc.1.length])
      refine ⟨[dset (dset cell "rerank_score" (PyVal.num p.1))
        "retrieval" (PyVal.str "reranked")] ++ ext, ?_, ?_⟩
      · rw [hext, List.append_assoc]
      · intro a ha
        rcases hmem a ha with h | h
        · rcases List.mem_append.mp h with h' | h'
          · exact Or.inl h'
          · rw [List.mem_singleton] at h'
            subst h'
            exact Or.inr (Nat.le_refl _)
        · rw [List.length_append] at h
          exact Or.inr (by omega)

/-- C9: neither score-attachment loop mutates the caller's chunk cells —
after either loop the original heap region is unchanged (`take` of the
old length returns the old heap), and every address returned as a result
points at a freshly allocated cell beyond the original heap. -/
theorem retrieve_rerank_no_mutation (heap : List PyDict)
    (chunkAddrs : List Nat) (hits : List (Int × ℚ)) (pairs : List (ℚ × Nat)) :
    ((retrieveLoopH heap chunkAddrs hits).1.take heap.length = heap ∧
      ∀ a ∈ (retrieveLoopH heap chunkAddrs hits).2, heap.length ≤ a) ∧
    ((rerankLoopH heap pairs).1.take heap.length = heap ∧
      ∀ a ∈ (rerankLoopH heap pairs).2, heap.length ≤ a) := by
  obtain ⟨ext1, hext1, hmem1⟩ := retrieveLoopH_extends chunkAddrs hits (heap, [])
  obtain ⟨ext2, hext2, hmem2⟩ := rerankLoopH_extends pairs (heap, [])
  refine ⟨⟨?_, ?_⟩, ?_, ?_⟩
  · show (retrieveLoopH heap chunkAddrs hits).1.take heap.length = heap
    rw [retrieveLoopH, hext1, List.take_left]
  · intro a ha
    rw [retrieveLoopH] at ha
    rcases hmem1 a ha with h | h
    · simp at h
    · exact h
  · show (rerankLoopH heap pairs).1.take heap.length = heap
    rw [rerankLoopH, hext2, List.take_left]
  · intro a ha
    rw [rerankLoopH] at ha
    rcases hmem2 a ha with h | h
    · simp at h
    · exact h
